import Mathlib

/-!
Verification of the sequential content-creation pipeline of the
`vscode-extension-template` repository.

The development shallowly embeds the pipeline code
(`SequentialOrchestrationService.ts`, `AutomatedOrchestrationService.ts`,
`CopilotOrchestrationService.ts`, `ContentPatternService.ts`,
`PromptService.ts`, `RepositoryContextService.ts`) into Lean.

Text is modelled as `List Char` (`Str`).  JavaScript regular-expression
operations used by the source are modelled by explicit, equivalent string
functions; each model carries a doc comment naming the regex it embeds.
Scope notes applying to the whole file:
* `\s` and `String.prototype.trim` are modelled over the ASCII whitespace
  characters (space, tab, newline, carriage return, form feed, vertical
  tab); the source's inputs are ASCII prompt/response text.
* `toLowerCase` is modelled on ASCII letters.
* Line structure is modelled with `'\n'` as the line separator; lone
  carriage-return line endings are not given special treatment.
-/

/-- Strings as explicit character lists. -/
abbrev Str := List Char

/-- ASCII approximation of the JavaScript `\s` character class
(as used by `trim`, `\s*` in the fenced-block regex, and `\s+` in the
heading regex). -/
def isJsWs (c : Char) : Bool :=
  c = ' ' || c = '\t' || c = '\n' || c = '\r' || c = '\x0b' || c = '\x0c'

/-- ASCII model of `String.prototype.toLowerCase` on one character. -/
def jsToLower (c : Char) : Char :=
  if 'A' ≤ c ∧ c ≤ 'Z' then Char.ofNat (c.toNat + 32) else c

/-- ASCII model of `String.prototype.toLowerCase`. -/
def lowerStr (s : Str) : Str := s.map jsToLower

/-- Model of `String.prototype.trimStart` (drop leading whitespace). -/
def trimLeftStr (s : Str) : Str := s.dropWhile (fun c => isJsWs c)

/-- Model of `String.prototype.trimEnd` (drop trailing whitespace). -/
def trimRightStr (s : Str) : Str :=
  (s.reverse.dropWhile (fun c => isJsWs c)).reverse

/-- Model of `String.prototype.trim`. -/
def trimStr (s : Str) : Str := trimLeftStr (trimRightStr s)

/-- `splitFirst s pat` finds the leftmost occurrence of `pat` in `s` and
returns the text before it and the text after it.  `none` when `pat` does
not occur.  This is the primitive behind the models of `String.match` with
a literal prefix and of global regex replacement. -/
def splitFirst : Str → Str → Option (Str × Str)
  | [], pat => if pat = [] then some ([], []) else none
  | c :: rest, pat =>
    if pat.isPrefixOf (c :: rest) then
      some ([], (c :: rest).drop pat.length)
    else
      match splitFirst rest pat with
      | some (a, b) => some (c :: a, b)
      | none => none

theorem splitFirst_spec (s pat : Str) :
    ∀ a b, splitFirst s pat = some (a, b) → s = a ++ pat ++ b := by
  induction s with
  | nil =>
    intro a b h
    simp only [splitFirst] at h
    split at h <;> simp_all
  | cons c rest ih =>
    intro a b h
    simp only [splitFirst] at h
    split at h
    · next hp =>
      obtain ⟨l, hl⟩ := List.isPrefixOf_iff_prefix.mp hp
      obtain ⟨ha, hb⟩ : a = [] ∧ (c :: rest).drop pat.length = b := by
        simpa using h
      subst ha
      simp only [← hl, List.drop_left' rfl] at hb
      simp [← hl, hb]
    · next hp =>
      cases hsf : splitFirst rest pat with
      | none => simp [hsf] at h
      | some ab =>
        obtain ⟨a', b'⟩ := ab
        simp only [hsf, Option.some.injEq, Prod.mk.injEq] at h
        obtain ⟨ha, hb⟩ := h
        subst hb
        rw [← ha]
        simpa using ih _ _ hsf

theorem splitFirst_none_no_occ (s pat : Str) (h : splitFirst s pat = none) :
    ¬ pat <:+: s := by
  induction s with
  | nil =>
    simp only [splitFirst] at h
    split at h <;> simp_all
  | cons c rest ih =>
    simp only [splitFirst] at h
    split at h
    · simp at h
    · next hp =>
      cases hsf : splitFirst rest pat with
      | some ab => simp [hsf] at h
      | none =>
        intro hinf
        rcases List.infix_cons_iff.mp hinf with hpre | htail
        · exact hp (List.isPrefixOf_iff_prefix.mpr hpre)
        · exact ih hsf htail

/-- The part before the leftmost occurrence contains no occurrence. -/
theorem splitFirst_before_no_occ (s pat : Str) (hpat : pat ≠ []) :
    ∀ a b, splitFirst s pat = some (a, b) → ¬ pat <:+: a := by
  induction s with
  | nil =>
    intro a b h
    simp only [splitFirst] at h
    split at h <;> simp_all
  | cons c rest ih =>
    intro a b h
    simp only [splitFirst] at h
    split at h
    · obtain ⟨ha, hb⟩ : a = [] ∧ (c :: rest).drop pat.length = b := by
        simpa using h
      subst ha
      intro hcon
      exact hpat (List.eq_nil_of_infix_nil hcon)
    · next hp =>
      cases hsf : splitFirst rest pat with
      | none => simp [hsf] at h
      | some ab =>
        obtain ⟨a', b'⟩ := ab
        simp only [hsf, Option.some.injEq, Prod.mk.injEq] at h
        obtain ⟨ha, hb⟩ := h
        rw [← ha]
        intro hinf
        rcases List.infix_cons_iff.mp hinf with hpre | htail
        · refine hp (List.isPrefixOf_iff_prefix.mpr (hpre.trans ⟨pat ++ b', ?_⟩))
          have := splitFirst_spec rest pat a' b' hsf
          simp [this]
        · exact ih a' b' hsf htail

theorem splitFirst_length (s pat : Str) (hpat : pat ≠ []) :
    ∀ a b, splitFirst s pat = some (a, b) → b.length < s.length := by
  intro a b h
  have hs := splitFirst_spec s pat a b h
  have hlen : s.length = a.length + pat.length + b.length := by
    simp [hs]
    omega
  have hp : 0 < pat.length := List.length_pos.mpr hpat
  omega

/-- Model of `String.prototype.replace` with a global regex whose pattern is
the literal string `pat`: every leftmost, non-overlapping occurrence of
`pat` is replaced by `rep`.  (`$`-escape sequences in replacement values
are outside the model; the source's replacement values are plain data.) -/
def replaceAll (s pat rep : Str) : Str :=
  if hpat : pat = [] then s
  else
    match hsf : splitFirst s pat with
    | none => s
    | some (a, b) => a ++ rep ++ replaceAll b pat rep
termination_by s.length
decreasing_by
  exact splitFirst_length s pat hpat a b hsf

theorem replaceAll_of_splitFirst_none (s pat rep : Str)
    (h : splitFirst s pat = none) : replaceAll s pat rep = s := by
  rw [replaceAll]
  split
  · rfl
  · split
    · rfl
    · next a b heq => rw [h] at heq; exact absurd heq (Option.noConfusion)

theorem replaceAll_of_splitFirst_some (s pat rep a b : Str) (hpat : pat ≠ [])
    (h : splitFirst s pat = some (a, b)) :
    replaceAll s pat rep = a ++ rep ++ replaceAll b pat rep := by
  rw [replaceAll]
  rw [dif_neg hpat]
  split
  · next heq => rw [h] at heq; exact absurd heq (Option.noConfusion)
  · next a' b' heq =>
    rw [h] at heq
    obtain ⟨ha, hb⟩ : a = a' ∧ b = b' := by
      have := Option.some.inj heq
      exact ⟨congrArg Prod.fst this, congrArg Prod.snd this⟩
    rw [← ha, ← hb]

/-- The segments of `s` between the leftmost, non-overlapping occurrences
of `pat` (the decomposition implicit in a global regex replacement). -/
def splitOnPat (s pat : Str) : List Str :=
  if hpat : pat = [] then [s]
  else
    match hsf : splitFirst s pat with
    | none => [s]
    | some (a, b) => a :: splitOnPat b pat
termination_by s.length
decreasing_by
  exact splitFirst_length s pat hpat a b hsf

theorem splitOnPat_of_splitFirst_none (s pat : Str)
    (h : splitFirst s pat = none) : splitOnPat s pat = [s] := by
  rw [splitOnPat]
  split
  · rfl
  · split
    · rfl
    · next a b heq => rw [h] at heq; exact absurd heq (Option.noConfusion)

theorem splitOnPat_of_splitFirst_some (s pat a b : Str) (hpat : pat ≠ [])
    (h : splitFirst s pat = some (a, b)) :
    splitOnPat s pat = a :: splitOnPat b pat := by
  rw [splitOnPat]
  rw [dif_neg hpat]
  split
  · next heq => rw [h] at heq; exact absurd heq (Option.noConfusion)
  · next a' b' heq =>
    rw [h] at heq
    obtain ⟨ha, hb⟩ : a = a' ∧ b = b' := by
      have := Option.some.inj heq
      exact ⟨congrArg Prod.fst this, congrArg Prod.snd this⟩
    rw [← ha, ← hb]

/-- Join a list of segments, placing `sep` between consecutive segments. -/
def joinWith (sep : Str) : List Str → Str
  | [] => []
  | [x] => x
  | x :: y :: rest => x ++ sep ++ joinWith sep (y :: rest)

theorem splitOnPat_ne_nil (s pat : Str) : splitOnPat s pat ≠ [] := by
  rw [splitOnPat]
  split
  · simp
  · split <;> simp

/-- A global replacement substitutes `rep` for every occurrence of `pat`:
the result is the in-between segments joined by `rep`. -/
theorem replaceAll_eq_joinWith (pat : Str) (hpat : pat ≠ []) :
    ∀ s rep, replaceAll s pat rep = joinWith rep (splitOnPat s pat) := by
  suffices H : ∀ n (s : Str), s.length ≤ n → ∀ rep,
      replaceAll s pat rep = joinWith rep (splitOnPat s pat) by
    exact fun s rep => H s.length s le_rfl rep
  intro n
  induction n with
  | zero =>
    intro s hs rep
    have hnil : s = [] := List.length_eq_zero.mp (Nat.le_zero.mp hs)
    subst hnil
    have hnone : splitFirst [] pat = none := by simp [splitFirst, hpat]
    rw [replaceAll_of_splitFirst_none _ _ _ hnone,
      splitOnPat_of_splitFirst_none _ _ hnone, joinWith]
  | succ n ih =>
    intro s hs rep
    cases hsf : splitFirst s pat with
    | none =>
      rw [replaceAll_of_splitFirst_none _ _ _ hsf,
        splitOnPat_of_splitFirst_none _ _ hsf, joinWith]
    | some ab =>
      obtain ⟨a, b⟩ := ab
      rw [replaceAll_of_splitFirst_some _ _ _ _ _ hpat hsf,
        splitOnPat_of_splitFirst_some _ _ _ _ hpat hsf]
      have hblen : b.length < s.length := splitFirst_length s pat hpat a b hsf
      rw [ih b (by omega) rep]
      have hne := splitOnPat_ne_nil b pat
      cases hsp : splitOnPat b pat with
      | nil => exact absurd hsp hne
      | cons x xs => simp [joinWith]

/-- None of the in-between segments contains an occurrence of `pat`:
every occurrence is consumed by the replacement. -/
theorem splitOnPat_no_occ (pat : Str) (hpat : pat ≠ []) :
    ∀ s, ∀ part ∈ splitOnPat s pat, ¬ pat <:+: part := by
  suffices H : ∀ n (s : Str), s.length ≤ n → ∀ part ∈ splitOnPat s pat,
      ¬ pat <:+: part by
    exact fun s => H s.length s le_rfl
  intro n
  induction n with
  | zero =>
    intro s hs part hmem
    have hnil : s = [] := List.length_eq_zero.mp (Nat.le_zero.mp hs)
    subst hnil
    have hnone : splitFirst [] pat = none := by simp [splitFirst, hpat]
    rw [splitOnPat_of_splitFirst_none _ _ hnone] at hmem
    simp only [List.mem_singleton] at hmem
    subst hmem
    simp [hpat, List.infix_nil]
  | succ n ih =>
    intro s hs part hmem
    cases hsf : splitFirst s pat with
    | none =>
      rw [splitOnPat_of_splitFirst_none _ _ hsf] at hmem
      simp only [List.mem_singleton] at hmem
      exact hmem ▸ splitFirst_none_no_occ s pat hsf
    | some ab =>
      obtain ⟨a, b⟩ := ab
      rw [splitOnPat_of_splitFirst_some _ _ _ _ hpat hsf] at hmem
      simp only [List.mem_cons] at hmem
      rcases hmem with rfl | hmem
      · exact splitFirst_before_no_occ s pat hpat _ b hsf
      · have hblen : b.length < s.length := splitFirst_length s pat hpat a b hsf
        exact ih b (by omega) part hmem

/-- The lines of a string, split at `'\n'` (the line structure seen by a
multiline regex). -/
def linesOf : Str → List Str
  | [] => [[]]
  | c :: r =>
    if c = '\n' then [] :: linesOf r
    else
      match linesOf r with
      | l :: ls => (c :: l) :: ls
      | [] => [[c]]

theorem linesOf_ne_nil (s : Str) : linesOf s ≠ [] := by
  cases s with
  | nil => simp [linesOf]
  | cons c r =>
    rw [linesOf]
    split
    · simp
    · split <;> simp

theorem linesOf_cons_nl (r : Str) : linesOf ('\n' :: r) = [] :: linesOf r := by
  rw [linesOf]
  simp

theorem linesOf_cons_other (c : Char) (r : Str) (hc : ¬ c = '\n') :
    linesOf (c :: r) = (c :: (linesOf r).headI) :: (linesOf r).tail := by
  rw [linesOf, if_neg hc]
  cases hls : linesOf r with
  | nil => exact absurd hls (linesOf_ne_nil r)
  | cons l ls => simp

theorem mem_linesOf_no_nl (s : Str) : ∀ L ∈ linesOf s, '\n' ∉ L := by
  induction s with
  | nil => simp [linesOf]
  | cons c r ih =>
    intro L hL
    by_cases hc : c = '\n'
    · subst hc
      rw [linesOf_cons_nl] at hL
      rcases List.mem_cons.mp hL with rfl | h
      · simp
      · exact ih L h
    · rw [linesOf_cons_other c r hc] at hL
      cases hls : linesOf r with
      | nil => exact absurd hls (linesOf_ne_nil r)
      | cons l ls =>
        rw [hls] at hL
        simp only [List.headI, List.tail] at hL
        rcases List.mem_cons.mp hL with rfl | h
        · intro hmem
          rcases List.mem_cons.mp hmem with rfl | h2
          · exact hc rfl
          · exact ih l (hls ▸ List.mem_cons_self l ls) h2
        · exact ih L (hls ▸ List.mem_cons_of_mem l h)

theorem linesOf_no_nl (s : Str) (h : '\n' ∉ s) : linesOf s = [s] := by
  induction s with
  | nil => simp [linesOf]
  | cons c r ih =>
    have hc : ¬ c = '\n' := fun hc => h (hc ▸ List.mem_cons_self c r)
    rw [linesOf_cons_other c r hc, ih (fun hm => h (List.mem_cons_of_mem c hm))]
    simp

theorem linesOf_append_nl (x y : Str) :
    linesOf (x ++ '\n' :: y) = linesOf x ++ linesOf y := by
  induction x with
  | nil => simp [linesOf_cons_nl, linesOf]
  | cons c r ih =>
    simp only [List.cons_append]
    by_cases hc : c = '\n'
    · subst hc
      rw [linesOf_cons_nl, linesOf_cons_nl, ih]
      simp
    · rw [linesOf_cons_other c _ hc, linesOf_cons_other c _ hc, ih]
      cases hls : linesOf r with
      | nil => exact absurd hls (linesOf_ne_nil r)
      | cons l ls => simp

theorem linesOf_head_decomp (s : Str) :
    ∃ B, s = (linesOf s).headI ++ B ∧ (B = [] ∨ B.head? = some '\n') := by
  induction s with
  | nil => exact ⟨[], by simp [linesOf], Or.inl rfl⟩
  | cons c r ih =>
    by_cases hc : c = '\n'
    · subst hc
      exact ⟨'\n' :: r, by rw [linesOf_cons_nl]; simp, Or.inr rfl⟩
    · obtain ⟨B, hB, hBc⟩ := ih
      refine ⟨B, ?_, hBc⟩
      rw [linesOf_cons_other c r hc]
      simp only [List.headI, List.cons_append]
      exact congrArg (c :: ·) hB

/-- Every line of a string occurs in it bounded by `'\n'` (or by an end
of the string); non-first lines are preceded by `'\n'`. -/
theorem linesOf_decomp (s : Str) :
    (∀ L ∈ linesOf s, ∃ A B, s = A ++ L ++ B ∧
      (A = [] ∨ A.getLast? = some '\n') ∧ (B = [] ∨ B.head? = some '\n')) ∧
    (∀ L ∈ (linesOf s).tail, ∃ A B, s = A ++ L ++ B ∧
      A.getLast? = some '\n' ∧ (B = [] ∨ B.head? = some '\n')) := by
  induction s with
  | nil =>
    constructor
    · intro L hL
      simp [linesOf] at hL
      subst hL
      exact ⟨[], [], by simp, Or.inl rfl, Or.inl rfl⟩
    · intro L hL
      simp [linesOf] at hL
  | cons c r ih =>
    by_cases hc : c = '\n'
    · subst hc
      have tailcase : ∀ L ∈ linesOf r, ∃ A B, '\n' :: r = A ++ L ++ B ∧
          A.getLast? = some '\n' ∧ (B = [] ∨ B.head? = some '\n') := by
        intro L hL
        obtain ⟨A, B, hdec, hA, hB⟩ := ih.1 L hL
        refine ⟨'\n' :: A, B, by simp [hdec], ?_, hB⟩
        cases A with
        | nil => simp
        | cons a as =>
          rcases hA with h | h
          · exact absurd h (List.cons_ne_nil a as)
          · rw [List.getLast?_cons_cons]
            exact h
      constructor
      · intro L hL
        rw [linesOf_cons_nl] at hL
        rcases List.mem_cons.mp hL with rfl | h
        · exact ⟨[], '\n' :: r, by simp, Or.inl rfl, Or.inr rfl⟩
        · obtain ⟨A, B, h1, h2, h3⟩ := tailcase L h
          exact ⟨A, B, h1, Or.inr h2, h3⟩
      · intro L hL
        rw [linesOf_cons_nl] at hL
        exact tailcase L hL
    · constructor
      · intro L hL
        rw [linesOf_cons_other c r hc] at hL
        rcases List.mem_cons.mp hL with rfl | h
        · obtain ⟨B, hB, hBc⟩ := linesOf_head_decomp r
          exact ⟨[], B, by simp [← hB], Or.inl rfl, hBc⟩
        · obtain ⟨A, B, h1, h2, h3⟩ := ih.2 L h
          refine ⟨c :: A, B, by simp [h1], Or.inr ?_, h3⟩
          cases A with
          | nil => simp at h2
          | cons a as =>
            rw [List.getLast?_cons_cons]
            exact h2
      · intro L hL
        rw [linesOf_cons_other c r hc] at hL
        simp only [List.tail_cons] at hL
        obtain ⟨A, B, h1, h2, h3⟩ := ih.2 L hL
        refine ⟨c :: A, B, by simp [h1], ?_, h3⟩
        cases A with
        | nil => simp at h2
        | cons a as =>
          rw [List.getLast?_cons_cons]
          exact h2

theorem mem_linesOf_decomp (s L : Str) (h : L ∈ linesOf s) :
    ∃ A B, s = A ++ L ++ B ∧
      (A = [] ∨ A.getLast? = some '\n') ∧ (B = [] ∨ B.head? = some '\n') :=
  (linesOf_decomp s).1 L h

theorem mem_linesOf_of_left_nil (L B : Str) (hL : '\n' ∉ L)
    (hB : B = [] ∨ B.head? = some '\n') : L ∈ linesOf (L ++ B) := by
  rcases hB with rfl | hB
  · simp [linesOf_no_nl L hL]
  · cases B with
    | nil => simp [linesOf_no_nl L hL]
    | cons b bs =>
      have hb : b = '\n' := by simpa using hB
      subst hb
      rw [linesOf_append_nl L bs, linesOf_no_nl L hL]
      simp

/-- Converse of `mem_linesOf_decomp`: a `'\n'`-free segment bounded by
line breaks (or string ends) is one of the lines. -/
theorem decomp_mem_linesOf (L A B : Str) (hL : '\n' ∉ L)
    (hA : A = [] ∨ A.getLast? = some '\n') (hB : B = [] ∨ B.head? = some '\n') :
    L ∈ linesOf (A ++ L ++ B) := by
  rcases hA with rfl | hA
  · simpa using mem_linesOf_of_left_nil L B hL hB
  · have hAne : A ≠ [] := by
      intro hnil
      subst hnil
      simp at hA
    have hlast : A.getLast hAne = '\n' := by
      have := List.getLast?_eq_getLast A hAne
      rw [this] at hA
      exact Option.some.inj hA
    have hAdec : A.dropLast ++ ['\n'] = A := by
      rw [← hlast]
      exact List.dropLast_append_getLast hAne
    have : A ++ L ++ B = A.dropLast ++ '\n' :: (L ++ B) := by
      rw [← hAdec]
      simp
    rw [this, linesOf_append_nl]
    exact List.mem_append_right _ (mem_linesOf_of_left_nil L B hL hB)

/-! ### JSON values and a model of `JSON.parse`

The pipeline code calls `JSON.parse` on oracle response text and then uses
the parsed value untyped (TypeScript casts perform no runtime checks).
`Json` is the value domain; numbers keep their source lexeme (the
difference between a lexeme and its IEEE double value plays no role in any
claim).  The parser follows the JSON grammar: literals, numbers (no
leading zeros), strings with escapes (`\uXXXX` decoded, surrogate pairing
outside the model), arrays, objects, with JSON whitespace; trailing
non-whitespace input is an error, as in `JSON.parse`.  Recursion is fueled
by input length (sufficient for all inputs exercised here; a `none` from
fuel exhaustion and a `none` from a syntax error both model a thrown
`SyntaxError`). -/

inductive Json where
  | null : Json
  | bool (b : Bool) : Json
  | num (lexeme : String) : Json
  | str (s : String) : Json
  | arr (elems : List Json) : Json
  | obj (fields : List (String × Json)) : Json

/-- JSON insignificant whitespace. -/
def skipJsonWs (s : Str) : Str :=
  s.dropWhile (fun c => c = ' ' || c = '\t' || c = '\n' || c = '\r')

def hexVal (c : Char) : Option Nat :=
  if c.isDigit then some (c.toNat - '0'.toNat)
  else if 'a' ≤ c ∧ c ≤ 'f' then some (c.toNat - 'a'.toNat + 10)
  else if 'A' ≤ c ∧ c ≤ 'F' then some (c.toNat - 'A'.toNat + 10)
  else none

/-- Parse the body of a JSON string (after the opening quote), returning
the decoded characters and the input after the closing quote. -/
def parseJsonStringBody : Nat → Str → Option (Str × Str)
  | 0, _ => none
  | _ + 1, [] => none
  | fuel + 1, c :: r =>
    if c = '"' then some ([], r)
    else if c = '\\' then
      match r with
      | 'u' :: h1 :: h2 :: h3 :: h4 :: r3 =>
        match hexVal h1, hexVal h2, hexVal h3, hexVal h4 with
        | some a, some b, some d, some e =>
          (parseJsonStringBody fuel r3).map
            (fun p => (Char.ofNat (((a * 16 + b) * 16 + d) * 16 + e) :: p.1, p.2))
        | _, _, _, _ => none
      | e :: r2 =>
        let dec : Option Char :=
          if e = '"' then some '"'
          else if e = '\\' then some '\\'
          else if e = '/' then some '/'
          else if e = 'b' then some '\x08'
          else if e = 'f' then some '\x0c'
          else if e = 'n' then some '\n'
          else if e = 'r' then some '\r'
          else if e = 't' then some '\t'
          else none
        match dec with
        | some d => (parseJsonStringBody fuel r2).map (fun p => (d :: p.1, p.2))
        | none => none
      | [] => none
    else if c.toNat < 0x20 then none
    else (parseJsonStringBody fuel r).map (fun p => (c :: p.1, p.2))

/-- JSON integer part (no leading zeros). -/
def parseIntPart (s : Str) : Option (Str × Str) :=
  match s with
  | [] => none
  | '0' :: r =>
    if (r.head?.elim false Char.isDigit) then none else some (['0'], r)
  | c :: r =>
    if c.isDigit then some (c :: r.takeWhile Char.isDigit, r.dropWhile Char.isDigit)
    else none

/-- JSON fraction part (possibly empty). -/
def parseFracPart (s : Str) : Option (Str × Str) :=
  match s with
  | '.' :: r =>
    let ds := r.takeWhile Char.isDigit
    if ds = [] then none else some ('.' :: ds, r.dropWhile Char.isDigit)
  | _ => some ([], s)

/-- JSON exponent part (possibly empty). -/
def parseExpPart (s : Str) : Option (Str × Str) :=
  match s with
  | c :: r =>
    if c = 'e' ∨ c = 'E' then
      let (sgn, r2) : Str × Str :=
        match r with
        | '+' :: r2 => (['+'], r2)
        | '-' :: r2 => (['-'], r2)
        | _ => ([], r)
      let ds := r2.takeWhile Char.isDigit
      if ds = [] then none
      else some (c :: (sgn ++ ds), r2.dropWhile Char.isDigit)
    else some ([], s)
  | [] => some ([], [])

/-- A JSON number lexeme. -/
def parseJsonNumber (s : Str) : Option (Str × Str) :=
  let (sign, s1) : Str × Str :=
    match s with
    | '-' :: r => (['-'], r)
    | _ => ([], s)
  match parseIntPart s1 with
  | none => none
  | some (ip, s2) =>
    match parseFracPart s2 with
    | none => none
    | some (fp, s3) =>
      match parseExpPart s3 with
      | none => none
      | some (ep, s4) => some (sign ++ ip ++ fp ++ ep, s4)

mutual

/-- Parse one JSON value (leading whitespace allowed). -/
def parseJsonVal : Nat → Str → Option (Json × Str)
  | 0, _ => none
  | fuel + 1, s0 =>
    let s := skipJsonWs s0
    match s with
    | [] => none
    | c :: r =>
      if ['n', 'u', 'l', 'l'].isPrefixOf s then some (.null, s.drop 4)
      else if ['t', 'r', 'u', 'e'].isPrefixOf s then some (.bool true, s.drop 4)
      else if ['f', 'a', 'l', 's', 'e'].isPrefixOf s then some (.bool false, s.drop 5)
      else if c = '"' then
        match parseJsonStringBody (fuel + 1) r with
        | some (cs, rest) => some (.str (String.mk cs), rest)
        | none => none
      else if c = '[' then
        match skipJsonWs r with
        | ']' :: r2 => some (.arr [], r2)
        | s2 => match parseJsonArrItems fuel s2 with
          | some (vs, rest) => some (.arr vs, rest)
          | none => none
      else if c = '{' then
        match skipJsonWs r with
        | '}' :: r2 => some (.obj [], r2)
        | s2 => match parseJsonObjItems fuel s2 with
          | some (ms, rest) => some (.obj ms, rest)
          | none => none
      else
        match parseJsonNumber s with
        | some (lex, rest) => some (.num (String.mk lex), rest)
        | none => none

/-- Parse the comma-separated items of a non-empty JSON array, up to and
including the closing bracket. -/
def parseJsonArrItems : Nat → Str → Option (List Json × Str)
  | 0, _ => none
  | fuel + 1, s =>
    match parseJsonVal fuel s with
    | none => none
    | some (v, rest) =>
      match skipJsonWs rest with
      | ',' :: r2 =>
        match parseJsonArrItems fuel r2 with
        | some (vs, rest2) => some (v :: vs, rest2)
        | none => none
      | ']' :: r2 => some ([v], r2)
      | _ => none

/-- Parse the members of a non-empty JSON object, up to and including the
closing brace. -/
def parseJsonObjItems : Nat → Str → Option (List (String × Json) × Str)
  | 0, _ => none
  | fuel + 1, s =>
    match skipJsonWs s with
    | '"' :: r =>
      match parseJsonStringBody (fuel + 1) r with
      | none => none
      | some (k, rest) =>
        match skipJsonWs rest with
        | ':' :: r2 =>
          match parseJsonVal fuel r2 with
          | none => none
          | some (v, rest2) =>
            match skipJsonWs rest2 with
            | ',' :: r3 =>
              match parseJsonObjItems fuel r3 with
              | some (ms, rest3) => some ((String.mk k, v) :: ms, rest3)
              | none => none
            | '}' :: r3 => some ([(String.mk k, v)], r3)
            | _ => none
        | _ => none
    | _ => none

end

/-- Model of `JSON.parse`: parse a whole text; anything but trailing
whitespace after the value is a syntax error. -/
def parseJsonText (s : Str) : Option Json :=
  match parseJsonVal (2 * s.length + 2) s with
  | none => none
  | some (j, rest) => if skipJsonWs rest = [] then some j else none

/-- Property read `o[key]` on a parsed JSON value: on an object, the last
binding of `key` (later duplicate keys overwrite earlier ones in
`JSON.parse`); `undefined` (`none`) otherwise. -/
def jsGetField (j : Json) (key : String) : Option Json :=
  match j with
  | .obj fields => ((fields.filter (fun kv => kv.1 = key)).getLast?).map (fun kv => kv.2)
  | _ => none

/-- `o[key]` when a string is expected: `some` only for a string value. -/
def jsGetStr (j : Json) (key : String) : Option String :=
  match jsGetField j key with
  | some (.str s) => some s
  | _ => none

/-- A JSON number is (numerically) zero iff every digit of its mantissa is
`0` (the exponent cannot make a nonzero mantissa zero). -/
def jsNumLexemeIsZero (lex : String) : Bool :=
  (lex.toList.takeWhile (fun c => ¬ (c = 'e' ∨ c = 'E'))).all
    (fun c => c.isDigit → c = '0')

/-- JavaScript truthiness of a parsed JSON value (`!x` / `x || y`). -/
def jsTruthy : Json → Bool
  | .null => false
  | .bool b => b
  | .num lex => ¬ jsNumLexemeIsZero lex
  | .str s => s ≠ ""
  | .arr _ => true
  | .obj _ => true

/-! ### JSON extraction from oracle responses -/

/-- The pattern `"```json"` as a character list. -/
def fenceOpen : Str := "```json".toList

/-- The pattern `"```"` as a character list. -/
def fenceClose : Str := "```".toList

/-- Model of `response.match(/```json\s*([\s\S]*?)\s*```/)`, returning the
captured group: the text after the first ` ```json `, up to the earliest
following ` ``` `, with surrounding whitespace stripped (the two `\s*` are
greedy at the edges, the group is lazy, so the capture is the trimmed
middle).  If no ` ``` ` follows the first ` ```json ` then no occurrence of
` ```json ` can match at all (any later occurrence would itself supply a
closing ` ``` `), so the whole regex fails. -/
def matchFencedJson (s : Str) : Option Str :=
  match splitFirst s fenceOpen with
  | none => none
  | some (_, rest) =>
    match splitFirst rest fenceClose with
    | none => none
    | some (mid, _) => some (trimStr mid)

/-- Split at the last occurrence of character `c`:
`s = pre ++ [c] ++ post` with `c ∉ post`. -/
def splitLastChar (s : Str) (c : Char) : Option (Str × Str) :=
  match splitFirst s.reverse [c] with
  | none => none
  | some (a, b) => some (b.reverse, a.reverse)

/-- Model of `response.match(/\{[\s\S]*\}/)`: greedy star, so the match
runs from the first `'{'` to the last `'}'` of the response (when one
follows the `'{'`).  This is not balanced-bracket matching. -/
def matchBraces (s : Str) : Option Str :=
  match splitFirst s ['{'] with
  | none => none
  | some (_, rest) =>
    match splitLastChar rest '}' with
    | none => none
    | some (mid, _) => some ('{' :: (mid ++ ['}']))

/-- `parseJsonResponse` of `SequentialOrchestrationService` (and,
character-for-character up to the error message suffix,
`AutomatedOrchestrationService`): first a fenced ` ```json ` block — whose
contents are then parsed unconditionally, a parse failure propagating as a
thrown `SyntaxError` —; if no fenced block exists, the entire response;
if that fails to parse, the greedy `{...}` match.  An `Except.error`
models a thrown exception. -/
def parseJsonResponse (response : Str) : Except String Json :=
  match matchFencedJson response with
  | some inner =>
    match parseJsonText inner with
    | some j => .ok j
    | none => .error "SyntaxError: JSON.parse"
  | none =>
    match parseJsonText response with
    | some j => .ok j
    | none =>
      match matchBraces response with
      | some m =>
        match parseJsonText m with
        | some j => .ok j
        | none => .error "SyntaxError: JSON.parse"
      | none => .error "Could not parse JSON from response"

theorem singleton_infix_of_mem {c : Char} {l : Str} (h : c ∈ l) :
    [c] <:+: l := by
  obtain ⟨u, v, rfl⟩ := List.append_of_mem h
  exact ⟨u, v, by simp⟩

theorem splitLastChar_spec (s : Str) (c : Char) (mid post : Str)
    (h : splitLastChar s c = some (mid, post)) :
    s = mid ++ [c] ++ post ∧ c ∉ post := by
  unfold splitLastChar at h
  cases hsf : splitFirst s.reverse [c] with
  | none => rw [hsf] at h; exact absurd h (Option.noConfusion)
  | some ab =>
    obtain ⟨a, b⟩ := ab
    rw [hsf] at h
    obtain ⟨hm, hp⟩ : b.reverse = mid ∧ a.reverse = post := by
      simpa using h
    have hs := splitFirst_spec s.reverse [c] a b hsf
    have hnotin : ¬ [c] <:+: a := splitFirst_before_no_occ s.reverse [c]
      (by simp) a b hsf
    constructor
    · have : s = (a ++ [c] ++ b).reverse := by rw [← hs]; simp
      rw [this, ← hm, ← hp]
      simp
    · rw [← hp]
      intro hmem
      exact hnotin (singleton_infix_of_mem (by simpa using hmem))

theorem matchBraces_spec (s m : Str) (h : matchBraces s = some m) :
    ∃ pre mid post, s = pre ++ m ++ post ∧ '{' ∉ pre ∧ '}' ∉ post ∧
      m = '{' :: (mid ++ ['}']) := by
  unfold matchBraces at h
  cases hsf : splitFirst s ['{'] with
  | none => rw [hsf] at h; exact absurd h (Option.noConfusion)
  | some ab =>
    obtain ⟨pre, rest⟩ := ab
    rw [hsf] at h
    dsimp only at h
    cases hsl : splitLastChar rest '}' with
    | none => rw [hsl] at h; exact absurd h (Option.noConfusion)
    | some mp =>
      obtain ⟨mid, post⟩ := mp
      rw [hsl] at h
      have hm : m = '{' :: (mid ++ ['}']) := by simpa using h.symm
      have hs := splitFirst_spec s ['{'] pre rest hsf
      have hpre : ¬ ['{'] <:+: pre :=
        splitFirst_before_no_occ s ['{'] (by simp) pre rest hsf
      obtain ⟨hrest, hpost⟩ := splitLastChar_spec rest '}' mid post hsl
      refine ⟨pre, mid, post, ?_, ?_, hpost, hm⟩
      · rw [hs, hrest, hm]
        simp
      · intro hmem
        exact hpre (singleton_infix_of_mem (by simpa using hmem))

/-! ### Pattern catalog (`ContentPatternService`)

`ContentStandards` carries many purely-descriptive fields (SEO, image and
code guidelines, …) that no pipeline logic reads; the embedding keeps the
fields consulted by the pipeline: the `contentTypes` pattern list and each
pattern's identification, section and template data. -/

/-- `SectionDefinition` of `ContentPattern.ts`. -/
structure SectionDefinition where
  name : String
  position : Nat
  required : Bool
  allowMultiple : Option Bool := none
  terminal : Option Bool := none
deriving DecidableEq

/-- `ContentPattern` of `ContentPattern.ts`. -/
structure ContentPattern where
  name : String
  id : String
  purpose : String
  description : String
  frontMatter : List (String × String) := []
  requiredSections : List String
  sectionOrder : List SectionDefinition
  terminalSections : List String
  markdownTemplate : String
deriving DecidableEq

/-- The `"Technical Guide"` pattern of `createDefaultStandards`. -/
def technicalGuidePattern : ContentPattern where
  name := "Technical Guide"
  id := "technical-guide"
  purpose := "Comprehensive technical documentation for developers and technical users"
  description := "In-depth technical guide covering implementation, configuration, and best practices"
  frontMatter := [("title", "Technical guide title"),
    ("description", "Brief description of the guide"), ("author", "author-name")]
  requiredSections := ["Introduction", "Prerequisites", "Implementation",
    "Best Practices", "Related Resources"]
  sectionOrder := [⟨"Introduction", 1, true, none, none⟩,
    ⟨"Prerequisites", 2, true, none, none⟩,
    ⟨"Implementation", 3, true, some true, none⟩,
    ⟨"Best Practices", 4, false, none, none⟩,
    ⟨"Related Resources", 99, true, none, some true⟩]
  terminalSections := ["Related Resources"]
  markdownTemplate := "# \x7b\x7btitle\x7d\x7d\n\n\x7b\x7bdescription\x7d\x7d\n\n## Prerequisites\n\n## Implementation\n\n## Best Practices\n\n## Related Resources"

/-- The `"API Documentation"` pattern of `createDefaultStandards`. -/
def apiDocsPattern : ContentPattern where
  name := "API Documentation"
  id := "api-docs"
  purpose := "Document APIs, endpoints, and integration guides"
  description := "Comprehensive API documentation with examples and integration guides"
  frontMatter := [("title", "API documentation title"),
    ("description", "API overview and usage guide"), ("author", "author-name")]
  requiredSections := ["Overview", "Authentication", "Endpoints", "Examples",
    "Error Handling"]
  sectionOrder := [⟨"Overview", 1, true, none, none⟩,
    ⟨"Authentication", 2, true, none, none⟩,
    ⟨"Endpoints", 3, true, some true, none⟩,
    ⟨"Examples", 4, true, none, none⟩,
    ⟨"Error Handling", 5, true, none, none⟩,
    ⟨"References", 99, true, none, some true⟩]
  terminalSections := ["References"]
  markdownTemplate := "# \x7b\x7btitle\x7d\x7d\n\n\x7b\x7bdescription\x7d\x7d\n\n## Overview\n\n## Authentication\n\n## Endpoints\n\n## Examples\n\n## Error Handling\n\n## References"

/-- The `contentTypes` of `createDefaultStandards` (the built-in fallback
pattern set). -/
def defaultContentTypes : List ContentPattern :=
  [technicalGuidePattern, apiDocsPattern]

/-- Untyped JSON read as a `ContentPattern` (the TypeScript
`JSON.parse(...) as ContentStandards` cast performs no validation; fields
of unexpected shape land as defaults here, which no claim exercises —
every loaded-catalog input used below is well-formed or empty). -/
def decodeStringField (j : Json) (key : String) : String :=
  (jsGetStr j key).getD ""

def decodePattern (j : Json) : ContentPattern where
  name := decodeStringField j "name"
  id := decodeStringField j "id"
  purpose := decodeStringField j "purpose"
  description := decodeStringField j "description"
  frontMatter := []
  requiredSections :=
    match jsGetField j "requiredSections" with
    | some (.arr xs) => xs.map (fun x => match x with | .str s => s | _ => "")
    | _ => []
  sectionOrder := []
  terminalSections :=
    match jsGetField j "terminalSections" with
    | some (.arr xs) => xs.map (fun x => match x with | .str s => s | _ => "")
    | _ => []
  markdownTemplate := decodeStringField j "markdownTemplate"

/-- The `contentTypes` state `loadContentStandards` leaves in
`this.contentStandards`: the built-in default catalog, or the parsed
field value kept as-is (the `as ContentStandards` cast checks nothing). -/
inductive LoadedContentTypes where
  | defaults : LoadedContentTypes
  | parsed (v : Json) : LoadedContentTypes

/-- `loadContentStandards`, reduced to the `contentTypes` it stores:
* file absent (`existsSync` false) → `createDefaultStandards`;
* `JSON.parse` throws → caught → `createDefaultStandards`;
* the parsed value's `contentTypes` is absent or `null` → the logging
  line's `.contentTypes.length` access throws a `TypeError` (also
  caught) → defaults;
* any other `contentTypes` value is kept, unvalidated — property access
  on a non-null primitive auto-boxes, so `.length` does not throw even
  when the value is not an array. -/
def loadContentStandards (file : Option String) : LoadedContentTypes :=
  match file with
  | none => .defaults
  | some content =>
    match parseJsonText content.toList with
    | none => .defaults
    | some j =>
      match jsGetField j "contentTypes" with
      | none => .defaults
      | some .null => .defaults
      | some v => .parsed v

/-- What `getAvailablePatterns` hands back: an array value (read as the
pattern list the `ContentPattern[]` typing promises), or a truthy
non-array `contentTypes` value returned outright. -/
inductive PatternsValue where
  | list (ps : List ContentPattern) : PatternsValue
  | raw (v : Json) : PatternsValue

/-- `getAvailablePatterns`: `contentStandards?.contentTypes || []`; after
construction the standards are always set.  On the default state this is
the built-in catalog; on a kept parsed state it is the raw `contentTypes`
value when truthy (an array is read as patterns, any other truthy value
is returned outright) and `[]` when falsy. -/
def getAvailablePatterns : LoadedContentTypes → PatternsValue
  | .defaults => .list defaultContentTypes
  | .parsed v =>
    if jsTruthy v then
      match v with
      | .arr cts => .list (cts.map decodePattern)
      | _ => .raw v
    else .list []

/-- `getPatternById`: `contentTypes.find(pattern => pattern.id === id)`. -/
def getPatternById (catalog : List ContentPattern) (id : String) : Option ContentPattern :=
  catalog.find? (fun p => p.id = id)

/-! ### Orchestration workflow (`SequentialOrchestrationService` /
`AutomatedOrchestrationService`)

The reasoning oracle is abstracted as the raw response text the service
receives for each step (`sendToCopilot` / `sendToCopilotAPI` return a
placeholder resp. a simulated response; any fixed oracle corresponds to a
possible behaviour).  Prompt rendering feeds only the oracle and is kept
as data flow into the (response-determining) oracle, not re-modelled
per step.  Progress callbacks and the final editor `openFile` touch no
pipeline state and are omitted.  `path.join(dir, name)` is modelled as
`dir ++ "/" ++ name` (no claim depends on path normalisation); calling it
with a non-string (e.g. `undefined` from a missing JSON field) throws a
`TypeError`, modelled by the error paths below. -/

/-- The filesystem seen through the `fs.promises` calls the pipeline makes:
directories with their plain files. -/
structure FS where
  dirs : List (String × List (String × String))
deriving DecidableEq

/-- `fs.promises.readdir` (throws when the directory is missing). -/
def readdirFS (fs : FS) (d : String) : Option (List (String × String)) :=
  List.lookup d fs.dirs

/-- `fs.promises.readFile` (throws when directory or file is missing). -/
def readFileFS (fs : FS) (d name : String) : Option String :=
  (List.lookup d fs.dirs).bind (fun entries => List.lookup name entries)

/-- `fs.promises.mkdir(dir, { recursive: true })`. -/
def mkdirFS (fs : FS) (d : String) : FS :=
  if (List.lookup d fs.dirs).isSome then fs else ⟨fs.dirs ++ [(d, [])]⟩

/-- `fs.promises.writeFile`: create or overwrite; throws (`none`) when the
directory does not exist. -/
def writeFS (fs : FS) (d name content : String) : Option FS :=
  match List.lookup d fs.dirs with
  | none => none
  | some entries =>
    let entries' :=
      if (List.lookup name entries).isSome then
        entries.map (fun kv => if kv.1 = name then (kv.1, content) else kv)
      else entries ++ [(name, content)]
    some ⟨fs.dirs.map (fun kv => if kv.1 = d then (kv.1, entries') else kv)⟩

/-- One oracle consultation per pipeline step. -/
inductive StepId where
  | directory | strategy | patternSel | generation | update
deriving DecidableEq

/-- `WorkflowStepResult<T>` of `OrchestrationModels.ts`; `data` keeps the
parsed JSON (the generic `T` is a compile-time cast only).  The `prompt`
field of the source is not carried (it records oracle input only). -/
structure WorkflowStepResult where
  success : Bool
  data : Option Json := none
  error : Option String := none
  response : String := ""

/-- The shared body of `selectDirectory`, `determineStrategy`,
`selectPattern`, `generateContent` and `updateContent`: one oracle call,
then `parseJsonResponse` in a `try`; a parse failure becomes
`success:false` with the error message. -/
def runStep (response : String) : WorkflowStepResult :=
  match parseJsonResponse response.toList with
  | .ok j => { success := true, data := some j, response := response }
  | .error e => { success := false, error := some e, response := response }

/-- `selectDirectory` (step 1). -/
def selectDirectoryStep (response : String) : WorkflowStepResult :=
  runStep response

/-- `determineStrategy` (step 2); `existingContent` enters the prompt
(hence the oracle input) only. -/
def determineStrategyStep (existingContent : String) (response : String) :
    WorkflowStepResult :=
  let _promptContext := existingContent
  runStep response

/-- `selectPattern` (step 3, CREATE branch); the catalog listing enters
the prompt only. -/
def selectPatternStep (catalog : List ContentPattern) (response : String) :
    WorkflowStepResult :=
  let _promptContext := catalog
  runStep response

/-- `generateContent` (step 4, CREATE branch).  The source looks up
`getPatternById(patternSelection.patternId)` and splices
`pattern?.markdownTemplate` / `pattern?.sectionOrder` into the prompt via
optional chaining: a failed lookup yields `undefined` fields in the prompt
and nothing else — the step's own success is untouched. -/
def generateContentStep (catalog : List ContentPattern) (patternData : Json)
    (response : String) : WorkflowStepResult :=
  let _lookedUp :=
    match jsGetStr patternData "patternId" with
    | some id => getPatternById catalog id
    | none => none
  runStep response

/-- `updateContent`'s oracle/parse part (step 4, UPDATE branch); the
existing file text enters the prompt only.  (The `readFile` that precedes
it in the source sits before the step's `try` block and is modelled at
the call site in `executeWorkflow`.) -/
def updateContentStep (existingContent : String) (response : String) :
    WorkflowStepResult :=
  let _promptContext := existingContent
  runStep response

/-- `readDirectoryContents`: list the directory, keep markdown files,
read at most 5, preview each at 500 characters; any I/O failure
(including `readdir(undefined)` when `selectedDirectory` is not a string)
degrades to `"Directory does not exist yet"`. -/
def mdPreview (name content : String) : String :=
  "### " ++ name ++ "\n" ++ String.mk (content.toList.take 500) ++ "...\n"

/-- `a.startsWith(b)` / `a.endsWith(b)`, modelled on character lists. -/
def strStartsWith (s pre : String) : Bool :=
  pre.toList.isPrefixOf s.toList

def strEndsWith (s suf : String) : Bool :=
  suf.toList.isSuffixOf s.toList

def isMarkdownName (name : String) : Bool :=
  strEndsWith name ".md" || strEndsWith name ".markdown"

def readDirectoryContents (fs : FS) (dir : Option String) : String :=
  match dir with
  | none => "Directory does not exist yet"
  | some d =>
    match readdirFS fs d with
    | none => "Directory does not exist yet"
    | some entries =>
      let mdFiles := entries.filter (fun kv => isMarkdownName kv.1)
      let contents := (mdFiles.take 5).map (fun kv => mdPreview kv.1 kv.2)
      if contents.length > 0 then String.intercalate "\n---\n" contents
      else "No existing markdown files in directory"

/-- `action` field of `OrchestrationResult`. -/
inductive OrchAction where
  | CREATED | UPDATED | INITIATED | FAILED
deriving DecidableEq

/-- The `steps` record of `OrchestrationResult`. -/
structure OrchSteps where
  directorySelection : Option WorkflowStepResult := none
  contentStrategy : Option WorkflowStepResult := none
  patternSelection : Option WorkflowStepResult := none
  contentGeneration : Option WorkflowStepResult := none

/-- `OrchestrationResult` of `OrchestrationModels.ts` (without the unused
`message` field). -/
structure OrchestrationResult where
  success : Bool
  filePath : Option String := none
  action : OrchAction
  steps : OrchSteps
  error : Option String := none

/-- String concatenation with a possibly-`undefined` JS value
(`'...failed: ' + result.error`). -/
def errStr : Option String → String
  | some e => e
  | none => "undefined"

/-- The guard `!stepResult.success || !stepResult.data` (JS truthiness on
the parsed data). -/
def stepOk (r : WorkflowStepResult) : Bool :=
  r.success && (match r.data with | some j => jsTruthy j | none => false)

/-- `strategyResult.data.action === 'CREATE'`. -/
def jsEqStrVal (j : Option Json) (s : String) : Bool :=
  match j with
  | some (.str v) => v = s
  | _ => false

/-- The failure exit of `executeWorkflow`'s `catch`: `success` stays
`false`, `action` keeps its initial `'CREATED'`, accumulated steps are
returned, the thrown message lands in `error`. -/
def failResult (steps : OrchSteps) (msg : String) : OrchestrationResult :=
  { success := false, action := .CREATED, steps := steps, error := some msg }

/-- `executeWorkflow` of `SequentialOrchestrationService` (structurally
identical in `AutomatedOrchestrationService`), from the directory-selection
step on (input processing and repository analysis precede the claims'
scope and touch no pipeline state), paired with the resulting filesystem. -/
def executeWorkflow (oracle : StepId → String) (catalog : List ContentPattern)
    (fs : FS) : OrchestrationResult × FS :=
  let dirR := selectDirectoryStep (oracle .directory)
  let steps1 : OrchSteps := { directorySelection := some dirR }
  if ¬ stepOk dirR then
    (failResult steps1 ("Directory selection failed: " ++ errStr dirR.error), fs)
  else
    let dirData := dirR.data.getD Json.null
    let selDir := jsGetStr dirData "selectedDirectory"
    let existing := readDirectoryContents fs selDir
    let stratR := determineStrategyStep existing (oracle .strategy)
    let steps2 := { steps1 with contentStrategy := some stratR }
    if ¬ stepOk stratR then
      (failResult steps2 ("Content strategy failed: " ++ errStr stratR.error), fs)
    else
      let stratData := stratR.data.getD Json.null
      if jsEqStrVal (jsGetField stratData "action") "CREATE" then
        -- CREATE branch: pattern selection, generation, saveContent
        let patR := selectPatternStep catalog (oracle .patternSel)
        let steps3 := { steps2 with patternSelection := some patR }
        if ¬ stepOk patR then
          (failResult steps3 ("Pattern selection failed: " ++ errStr patR.error), fs)
        else
          let patData := patR.data.getD Json.null
          let genR := generateContentStep catalog patData (oracle .generation)
          let steps4 := { steps3 with contentGeneration := some genR }
          if ¬ stepOk genR then
            (failResult steps4 ("Content generation failed: " ++ errStr genR.error), fs)
          else
            let genData := genR.data.getD Json.null
            match selDir with
            | none =>
              -- saveContent: mkdir(undefined) throws before creating anything
              (failResult steps4 "TypeError: mkdir path must be a string", fs)
            | some d =>
              let fs1 := mkdirFS fs d
              match jsGetStr genData "filename" with
              | none =>
                -- path.join(dir, undefined) throws — after the mkdir
                (failResult steps4 "TypeError: path.join arguments must be strings", fs1)
              | some fn =>
                match jsGetStr genData "content" with
                | none =>
                  (failResult steps4 "TypeError: writeFile data must be a string", fs1)
                | some content =>
                  match writeFS fs1 d fn content with
                  | none => (failResult steps4 "ENOENT: no such directory", fs1)
                  | some fs2 =>
                    ({ success := true, filePath := some (d ++ "/" ++ fn),
                       action := .CREATED, steps := steps4 }, fs2)
      else
        -- UPDATE branch (any action other than the string 'CREATE')
        match selDir, jsGetStr stratData "targetFile" with
        | none, _ =>
          (failResult steps2 "TypeError: path.join arguments must be strings", fs)
        | _, none =>
          (failResult steps2 "TypeError: path.join arguments must be strings", fs)
        | some d, some tf =>
          match readFileFS fs d tf with
          | none =>
            (failResult steps2 "ENOENT: no such file or directory", fs)
          | some existingFile =>
            let updR := updateContentStep existingFile (oracle .update)
            let steps4 := { steps2 with contentGeneration := some updR }
            if ¬ stepOk updR then
              (failResult steps4 ("Content update failed: " ++ errStr updR.error), fs)
            else
              let updData := updR.data.getD Json.null
              match jsGetStr updData "content" with
              | none =>
                (failResult steps4 "TypeError: writeFile data must be a string", fs)
              | some content =>
                match writeFS fs d tf content with
                | none => (failResult steps4 "ENOENT: no such directory", fs)
                | some fs2 =>
                  ({ success := true, filePath := some (d ++ "/" ++ tf),
                     action := .UPDATED, steps := steps4 }, fs2)

/-! ### `CopilotOrchestrationService.parseContentStrategy` -/

/-- `x || d` on a possibly-absent JSON value. -/
def jsOrDefault (v : Option Json) (d : Json) : Json :=
  match v with
  | some x => if jsTruthy x then x else d
  | none => d

/-- `CopilotContentStrategy` of `CopilotOrchestrationService.ts`; fields
the source merely copies from the untyped parse are kept as `Json`. -/
structure CopilotContentStrategy where
  action : String
  targetFile : Option Json := none
  contentPattern : Json
  reasoning : Json
  existingContentSummary : Option Json := none

/-- The `catch`/no-match fallback object of `parseContentStrategy`. -/
def strategyFallback : CopilotContentStrategy where
  action := "create"
  contentPattern := .str "technical-guide"
  reasoning := .str "Fallback to create new content"

/-- `parseContentStrategy`: only a fenced ` ```json ` block is consulted;
no block, or a parse error (caught by the surrounding `try`), yields the
CREATE fallback; and `parsed.action === 'update' ? 'update' : 'create'`
maps every action other than the exact string `'update'` to `'create'`. -/
def parseContentStrategy (response : String) : CopilotContentStrategy :=
  match matchFencedJson response.toList with
  | none => strategyFallback
  | some inner =>
    match parseJsonText inner with
    | none => strategyFallback
    | some parsed =>
      { action :=
          if jsEqStrVal (jsGetField parsed "action") "update" then "update"
          else "create"
        targetFile := jsGetField parsed "targetFile"
        contentPattern :=
          jsOrDefault (jsGetField parsed "contentPattern") (.str "technical-guide")
        reasoning :=
          jsOrDefault (jsGetField parsed "reasoning") (.str "Content strategy decision")
        existingContentSummary := jsGetField parsed "existingContentSummary" }

/-- The guard at the head of `updateExistingContent`:
`if (!contentStrategy.targetFile) throw new Error('Target file not
specified for update')`. -/
def updateExistingContentGuard (cs : CopilotContentStrategy) : Except String Unit :=
  match cs.targetFile with
  | some j => if jsTruthy j then .ok () else .error "Target file not specified for update"
  | none => .error "Target file not specified for update"

/-! ### `PromptService.renderPrompt` -/

/-- `a.includes(b)` (substring containment). -/
def containsSub (s pat : Str) : Bool :=
  (splitFirst s pat).isSome

/-- The two-character string `"{{"`. -/
def twoBraces : Str := ['{', '{']

/-- The placeholder pattern `{{key}}` built by
`new RegExp('\\{\\{' + key + '\\}\\}', 'g')` (keys are plain identifiers,
so the interpolation is literal). -/
def placeholderOf (key : Str) : Str :=
  twoBraces ++ key ++ ['}', '}']

/-- The substitution loop of `renderPrompt`: for each entry in order,
globally replace `{{key}}` by the value. -/
def renderTemplate (template : Str) (vars : List (String × String)) : Str :=
  vars.foldl
    (fun t kv => replaceAll t (placeholderOf kv.1.toList) kv.2.toList) template

/-- ASCII model of the `\w` class. -/
def isWordChar (c : Char) : Bool :=
  c.isAlpha || c.isDigit || c = '_'

/-- Model of `template.match(/\{\{\w+\}\}/g)`: the placeholders remaining
after substitution (what `renderPrompt` logs as a warning; on a failed
match the scan advances one character, on a success past the match). -/
def findUnresolved : Str → List Str
  | [] => []
  | c :: r =>
    if c = '{' then
      match r with
      | '{' :: r2 =>
        if (r2.takeWhile isWordChar) ≠ [] then
          match hdw : r2.dropWhile isWordChar with
          | '}' :: '}' :: r3 =>
            placeholderOf (r2.takeWhile isWordChar) :: findUnresolved r3
          | _ => findUnresolved ('{' :: r2)
        else findUnresolved ('{' :: r2)
      | [] => []
      | c2 :: r2 => findUnresolved (c2 :: r2)
    else
      match r with
      | [] => []
      | c2 :: r2 => findUnresolved (c2 :: r2)
termination_by s => s.length
decreasing_by
  · have h1 : (r2.dropWhile isWordChar).length ≤ r2.length :=
      (List.dropWhile_sublist isWordChar).length_le
    rw [hdw] at h1
    simp at h1 ⊢
    omega
  · simp
  · simp
  · simp
  · simp

/-- `renderPrompt(promptIdOrTemplate, variables)`: a slash-containing,
placeholder-free argument is a prompt id — unknown ids throw; otherwise
the argument itself is the template.  Both paths run the same global
substitutions; remaining placeholders are only logged (`findUnresolved`)
and the (possibly partially rendered) text is still returned. -/
def renderPrompt (store : String → Option String) (arg : String)
    (vars : List (String × String)) : Except String String :=
  if containsSub arg.toList ['/'] ∧ ¬ containsSub arg.toList twoBraces then
    match store arg with
    | none => .error ("Prompt not found: " ++ arg)
    | some t => .ok (String.mk (renderTemplate t.toList vars))
  else
    .ok (String.mk (renderTemplate arg.toList vars))

/-! ### Repository analyzer (`RepositoryContextService`) -/

/-- The on-disk tree `buildDirectoryTree` walks (name plus either file
size or directory entries). -/
inductive FsEntry where
  | file (name : String) (size : Nat)
  | dir (name : String) (entries : List FsEntry)

inductive NodeType where
  | file | dir
deriving DecidableEq

/-- `DirectoryNode` of `RepositoryContextService.ts` (the `path` field
duplicates name information and is omitted). -/
inductive DirectoryNode where
  | mk (name : String) (ntype : NodeType)
       (children : Option (List DirectoryNode))
       (size : Option Nat) (isDocRelated : Bool)

def DirectoryNode.name : DirectoryNode → String
  | .mk n _ _ _ _ => n

def DirectoryNode.ntype : DirectoryNode → NodeType
  | .mk _ t _ _ _ => t

def DirectoryNode.children : DirectoryNode → Option (List DirectoryNode)
  | .mk _ _ cs _ _ => cs

/-- `shouldSkipDirectory`: the fixed skip list, plus every dot-directory. -/
def skipPatterns : List String :=
  ["node_modules", ".git", ".svn", ".hg", "dist", "build", "target",
   "bin", "obj", ".vscode", ".idea", "__pycache__", ".pytest_cache",
   "coverage", ".nyc_output", "vendor", ".DS_Store", "logs"]

def shouldSkipDirectory (name : String) : Bool :=
  skipPatterns.contains name || strStartsWith name "."

/-- `isDocumentationRelated`: keyword match against the lowercased name. -/
def docKeywords : List String :=
  ["docs", "doc", "documentation", "guide", "guides", "tutorial",
   "tutorials", "manual", "wiki", "readme", "api-docs", "reference",
   "examples", "how-to", "howto", "getting-started", "quickstart"]

def isDocumentationRelated (name : String) : Bool :=
  let lowerName := String.mk (lowerStr name.toList)
  docKeywords.any (fun kw =>
    containsSub lowerName.toList kw.toList ||
    lowerName = kw ||
    strStartsWith lowerName (kw ++ "-") ||
    strEndsWith lowerName ("-" ++ kw))

/-- The child comparator of `buildDirectoryTree`: directories first, then
by name (`localeCompare` modelled as code-unit order). -/
def nodeLe (a b : DirectoryNode) : Bool :=
  if a.ntype = b.ntype then a.name ≤ b.name
  else a.ntype = NodeType.dir

/-- `buildDirectoryTree(dirPath, depth = 0, maxDepth = 3)`: children are
enumerated only for a directory with `depth < maxDepth` whose name is not
skipped; inaccessible-entry error handling is superseded by the total
tree input. -/
def buildDirectoryTree (e : FsEntry) (depth : Nat) (maxDepth : Nat) :
    DirectoryNode :=
  match e with
  | .file n sz => .mk n .file none (some sz) (isDocumentationRelated n)
  | .dir n entries =>
    if depth < maxDepth ∧ ¬ shouldSkipDirectory n then
      let children := entries.attach.map
        (fun c => buildDirectoryTree c.1 (depth + 1) maxDepth)
      .mk n .dir (some (children.mergeSort nodeLe)) none
        (isDocumentationRelated n)
    else
      .mk n .dir none none (isDocumentationRelated n)
decreasing_by
  have := List.sizeOf_lt_of_mem c.2
  cases c
  simp_all
  omega

/-- Depth-boundedness and skip-list discipline of a built tree: children
are present only below `maxDepth` and never under a skipped name, at
every level. -/
inductive NodeBounded (maxDepth : Nat) : Nat → DirectoryNode → Prop where
  | leaf : ∀ d name t sz dr,
      NodeBounded maxDepth d (.mk name t none sz dr)
  | node : ∀ d name t cs sz dr,
      d < maxDepth → ¬ shouldSkipDirectory name →
      (∀ c ∈ cs, NodeBounded maxDepth (d + 1) c) →
      NodeBounded maxDepth d (.mk name t (some cs) sz dr)

/-! ### Content shaping (`applyPatternToContent` and friends) -/

/-- One line against the heading regex `/^#+\s+(.+)$/` (per line of the
`gm` scan), returning the captured group: after the leading `#` run and at
least one whitespace character, the rest of the line — except that when
nothing but whitespace follows the `#` run, backtracking leaves the last
whitespace character to the greedy `(.+)` (so `"##  "` captures `" "`,
while `"## "` does not match). -/
def headingOfLine (L : Str) : Option Str :=
  let hashes := L.takeWhile (fun c => c = '#')
  let t := L.dropWhile (fun c => c = '#')
  if hashes = [] then none
  else
    let w := t.takeWhile (fun c => isJsWs c)
    let r := t.dropWhile (fun c => isJsWs c)
    if w = [] then none
    else if r ≠ [] then some r
    else if w.length ≥ 2 then some (w.drop (w.length - 1))
    else none

/-- `extractHeadings`: the heading captures of all lines. -/
def extractHeadings (content : Str) : List Str :=
  (linesOf content).filterMap headingOfLine

/-- `headings.some(h => h.toLowerCase().includes(sec.toLowerCase()))`. -/
def coversSection (headings : List Str) (sec : String) : Bool :=
  headings.any (fun h => containsSub (lowerStr h) (lowerStr sec.toList))

/-- The `missingRequired` computation shared by `ensureRequiredSections`
and `validateContentAgainstPattern`. -/
def missingRequiredIn (content : Str) (p : ContentPattern) : List String :=
  p.requiredSections.filter
    (fun sec => ¬ coversSection (extractHeadings content) sec)

/-- One line against `new RegExp('^#+\\s+' + sec, 'mi')` (the terminal
section locator; the interpolated name is modelled literally — the
pipeline's terminal names contain no regex metacharacters): a `#` run,
then at least one whitespace character (the greedy `\s+` backtracks), then
the name, case-insensitively. -/
def lineMatchesTerminal (L : Str) (t : String) : Bool :=
  let rest := L.dropWhile (fun c => c = '#')
  (L.takeWhile (fun c => c = '#')) ≠ [] &&
  (rest.takeWhile (fun c => isJsWs c)) ≠ [] &&
  (List.range (rest.takeWhile (fun c => isJsWs c)).length).any
    (fun k => (lowerStr t.toList).isPrefixOf (lowerStr (rest.drop (k + 1))))

/-- Split `s` at the start of the first line matching the terminal-name
regex for `t` (the `match.index` of the `m`-anchored search is always a
line start). -/
def splitAtFirstMatchingLine (s : Str) (t : String) : Option (Str × Str) :=
  match hsf : splitFirst s ['\n'] with
  | none => if lineMatchesTerminal s t then some ([], s) else none
  | some (l1, rest) =>
    if lineMatchesTerminal l1 t then some ([], s)
    else
      match splitAtFirstMatchingLine rest t with
      | some (a, b) => some (l1 ++ '\n' :: a, b)
      | none => none
termination_by s.length
decreasing_by
  exact splitFirst_length s ['\n'] (by simp) l1 rest hsf

/-- `findTerminalSectionIndex`, as the induced split of the content: the
first terminal name (in catalog order) with a matching line wins. -/
def findTerminalSplit (content : Str) : List String → Option (Str × Str)
  | [] => none
  | t :: ts =>
    match splitAtFirstMatchingLine content t with
    | some pr => some pr
    | none => findTerminalSplit content ts

/-- The inserted block `\n## ${sec}\n\n[Content for ${sec}]\n`. -/
def sectionBlock (sec : String) : Str :=
  ("\n## " ++ sec ++ "\n\n[Content for " ++ sec ++ "]\n").toList

/-- `ensureRequiredSections`: append a stub heading block for every
missing required section, before the terminal section when one is found,
else at the end. -/
def ensureRequiredSections (content : Str) (p : ContentPattern) : Str :=
  let missing := missingRequiredIn content p
  if missing.length > 0 then
    let toAdd := (missing.map sectionBlock).join
    match findTerminalSplit content p.terminalSections with
    | some pr => pr.1 ++ toAdd ++ pr.2
    | none => content ++ toAdd
  else content

def isHeadingLine (L : Str) : Bool :=
  (headingOfLine L).isSome

/-- `content.replace(/^(#+\s+.+)$/gm, '\n$1\n')`: every line that is
entirely a heading match is wrapped in fresh line breaks (line-level
reading of the anchored global replacement). -/
def surroundHeadings (s : Str) : Str :=
  joinWith ['\n']
    ((linesOf s).flatMap (fun L => if isHeadingLine L then [[], L, []] else [L]))

/-- `formatted.replace(/\n{3,}/g, '\n\n')`: runs of three or more line
breaks shrink to two (expressed by repeatedly deleting a break followed by
two more). -/
def collapseNewlines : Str → Str
  | '\n' :: '\n' :: '\n' :: rest => collapseNewlines ('\n' :: '\n' :: rest)
  | c :: rest => c :: collapseNewlines rest
  | [] => []
termination_by s => s.length
decreasing_by
  · simp
  · simp

/-- `applyFormattingGuidelines`. -/
def applyFormattingGuidelines (content : Str) : Str :=
  let f1 := surroundHeadings content
  let f2 := collapseNewlines f1
  let f3 := if f2.getLast? = some '\n' then f2 else f2 ++ ['\n']
  trimStr f3 ++ ['\n']

/-- `generateFromTemplate` (the source duplicates the `{{key}}`
substitution loop of `renderPrompt`). -/
def generateFromTemplate (p : ContentPattern) (vars : List (String × String)) : Str :=
  renderTemplate p.markdownTemplate.toList vars

/-- `applyPatternToContent(pattern, content, variables = {})`. -/
def applyPatternToContent (p : ContentPattern) (content : Str)
    (vars : List (String × String) := []) : Str :=
  let processed :=
    if (trimStr content).length < 100 then generateFromTemplate p vars
    else content
  let processed := ensureRequiredSections processed p
  applyFormattingGuidelines processed

/-- Result record of `validateContentAgainstPattern`. -/
structure PatternValidation where
  valid : Bool
  missingRequired : List String
  suggestions : List String
deriving DecidableEq

/-- `validateContentAgainstPattern`. -/
def validateContentAgainstPattern (content : Str) (p : ContentPattern) :
    PatternValidation :=
  let headings := extractHeadings content
  let missing := p.requiredSections.filter (fun sec => ¬ coversSection headings sec)
  let hasTerminal := p.terminalSections.any (fun sec => coversSection headings sec)
  let suggestions :=
    (if missing.length > 0 then
      ["Add missing required sections: " ++ String.intercalate ", " missing]
     else []) ++
    (if ¬ hasTerminal then
      ["Add a terminal section: " ++ String.intercalate " or " p.terminalSections]
     else [])
  { valid := missing.isEmpty && hasTerminal
    missingRequired := missing
    suggestions := suggestions }


theorem containsSub_iff (s pat : Str) : containsSub s pat = true ↔ pat <:+: s := by
  unfold containsSub
  constructor
  · intro h
    cases hsf : splitFirst s pat with
    | none => rw [hsf] at h; simp at h
    | some ab =>
      obtain ⟨a, b⟩ := ab
      exact ⟨a, b, (splitFirst_spec s pat a b hsf).symm⟩
  · intro h
    cases hsf : splitFirst s pat with
    | none => exact absurd h (splitFirst_none_no_occ s pat hsf)
    | some ab => simp [hsf]

/-! ### Character and trimming lemmas for the content-shaping proofs -/

theorem char_eq_iff_toNat (a b : Char) : a = b ↔ a.toNat = b.toNat := by
  constructor
  · intro h; rw [h]
  · intro h
    exact Char.ext (UInt32.ext h)

theorem isJsWs_iff_toNat (c : Char) : isJsWs c = true ↔
    (c.toNat = 32 ∨ c.toNat = 9 ∨ c.toNat = 10 ∨ c.toNat = 13 ∨
     c.toNat = 11 ∨ c.toNat = 12) := by
  have h1 : (' ' : Char).toNat = 32 := rfl
  have h2 : ('\t' : Char).toNat = 9 := rfl
  have h3 : ('\n' : Char).toNat = 10 := rfl
  have h4 : ('\r' : Char).toNat = 13 := rfl
  have h5 : ('\x0b' : Char).toNat = 11 := rfl
  have h6 : ('\x0c' : Char).toNat = 12 := rfl
  simp only [isJsWs, Bool.or_eq_true, decide_eq_true_eq, char_eq_iff_toNat,
    h1, h2, h3, h4, h5, h6]
  tauto

theorem charToNat_ofNat (n : Nat) (h : n < 55296) : (Char.ofNat n).toNat = n := by
  rw [Char.ofNat, dif_pos (Or.inl h)]
  rfl

/-- `toLowerCase` maps whitespace to whitespace and non-whitespace to
non-whitespace (`A`–`Z` land on `a`–`z`; everything else is fixed). -/
theorem isJsWs_jsToLower (c : Char) : isJsWs (jsToLower c) = isJsWs c := by
  unfold jsToLower
  split
  · next h =>
    obtain ⟨h1, h2⟩ := h
    have hb1 : 65 ≤ c.toNat := h1
    have hb2 : c.toNat ≤ 90 := h2
    have hx : (Char.ofNat (c.toNat + 32)).toNat = c.toNat + 32 :=
      charToNat_ofNat _ (by omega)
    have hl : ¬ isJsWs c = true := by
      rw [isJsWs_iff_toNat]; omega
    have hr : ¬ isJsWs (Char.ofNat (c.toNat + 32)) = true := by
      rw [isJsWs_iff_toNat, hx]; omega
    rw [Bool.eq_false_iff.mpr hl, Bool.eq_false_iff.mpr hr]
  · rfl

theorem trimRight_eq_nil_iff (s : Str) :
    trimRightStr s = [] ↔ ∀ c ∈ s, isJsWs c = true := by
  unfold trimRightStr
  rw [List.reverse_eq_nil_iff, List.dropWhile_eq_nil_iff]
  constructor
  · intro h c hc
    exact h c (List.mem_reverse.mpr hc)
  · intro h c hc
    exact h c (List.mem_reverse.mp hc)

theorem trimRight_ne_nil_of_mem (s : Str) (c : Char) (hc : c ∈ s)
    (hws : isJsWs c = false) : trimRightStr s ≠ [] := by
  intro h
  have := (trimRight_eq_nil_iff s).mp h c hc
  rw [hws] at this
  exact Bool.false_ne_true this

theorem trimRight_append_of_ne_nil (x y : Str) (h : trimRightStr y ≠ []) :
    trimRightStr (x ++ y) = x ++ trimRightStr y := by
  have hdy : y.reverse.dropWhile (fun c => isJsWs c) ≠ [] := by
    intro hc
    exact h (by simp [trimRightStr, hc])
  unfold trimRightStr
  rw [List.reverse_append, List.dropWhile_append,
    if_neg (by simpa using hdy), List.reverse_append, List.reverse_reverse]

theorem trimRight_append_of_nil (x y : Str) (h : trimRightStr y = []) :
    trimRightStr (x ++ y) = trimRightStr x := by
  have hdy : y.reverse.dropWhile (fun c => isJsWs c) = [] := by
    have := congrArg List.reverse h
    simpa [trimRightStr] using this
  unfold trimRightStr
  rw [List.reverse_append, List.dropWhile_append, if_pos (by simp [hdy])]

theorem prefix_trimRight (s : Str) : trimRightStr s <+: s := by
  have h : (trimRightStr s).reverse <:+ s.reverse := by
    unfold trimRightStr
    rw [List.reverse_reverse]
    exact List.dropWhile_suffix _
  exact List.reverse_suffix.mp h

theorem trimRight_head (s : Str) (h : trimRightStr s ≠ []) :
    (trimRightStr s).head? = s.head? := by
  obtain ⟨t, ht⟩ := prefix_trimRight s
  cases hx : trimRightStr s with
  | nil => exact absurd hx h
  | cons a l =>
    rw [hx] at ht
    rw [← ht]
    simp

theorem trimLeft_append_of_ne_nil (x y : Str) (h : trimLeftStr x ≠ []) :
    trimLeftStr (x ++ y) = trimLeftStr x ++ y := by
  unfold trimLeftStr at *
  rw [List.dropWhile_append, if_neg (by simpa using h)]

theorem trimLeft_append_of_nil (x y : Str) (h : trimLeftStr x = []) :
    trimLeftStr (x ++ y) = trimLeftStr y := by
  unfold trimLeftStr at *
  rw [List.dropWhile_append, if_pos (by simp [h])]

theorem trimLeft_getLast (s : Str) (h : trimLeftStr s ≠ []) :
    (trimLeftStr s).getLast? = s.getLast? := by
  obtain ⟨t, ht⟩ : trimLeftStr s <:+ s := List.dropWhile_suffix _
  conv_rhs => rw [← ht]
  rw [List.getLast?_append_of_ne_nil t h]

theorem trimLeft_of_head (s : Str) (c : Char) (hh : s.head? = some c)
    (hc : isJsWs c = false) : trimLeftStr s = s := by
  cases s with
  | nil => simp at hh
  | cons a l =>
    obtain rfl : a = c := by simpa using hh
    unfold trimLeftStr
    rw [List.dropWhile_cons_of_neg (by simp [hc])]

theorem trimLeft_fix_head (s : Str) (h : trimLeftStr s = s) (hne : s ≠ []) :
    isJsWs s.headI = false := by
  cases s with
  | nil => exact absurd rfl hne
  | cons a l =>
    by_contra hws
    have hws' : isJsWs a = true := by
      simpa using Bool.of_not_eq_false hws
    unfold trimLeftStr at h
    rw [List.dropWhile_cons_of_pos (by simp [hws'])] at h
    have := congrArg List.length h
    have hle := (List.dropWhile_sublist (fun c => isJsWs c) (l := l)).length_le
    simp at this
    omega

theorem lower_trimRight (s : Str) :
    lowerStr (trimRightStr s) = trimRightStr (lowerStr s) := by
  have hp : ((fun c => isJsWs c) ∘ jsToLower) = (fun c => isJsWs c) := by
    funext c
    exact isJsWs_jsToLower c
  unfold lowerStr trimRightStr
  rw [← List.map_reverse, List.dropWhile_map, hp, ← List.map_reverse]

theorem dropWhile_head_not (p : Char → Bool) (l : Str) (c : Char) (r : Str)
    (h : l.dropWhile p = c :: r) : p c = false := by
  induction l with
  | nil => simp at h
  | cons a as ih =>
    by_cases hp : p a
    · rw [List.dropWhile_cons_of_pos hp] at h
      exact ih h
    · rw [List.dropWhile_cons_of_neg hp] at h
      obtain rfl : a = c := by simpa using congrArg List.head? h
      exact Bool.of_not_eq_true hp

theorem takeWhile_append_cons (p : Char → Bool) (xs : Str) (c : Char) (ys : Str)
    (hxs : ∀ x ∈ xs, p x = true) (hc : p c = false) :
    (xs ++ c :: ys).takeWhile p = xs := by
  induction xs with
  | nil => simp [List.takeWhile_cons, hc]
  | cons a as ih =>
    have ha : p a = true := hxs a (List.mem_cons_self a as)
    simp only [List.cons_append, List.takeWhile_cons, ha, if_true]
    rw [ih (fun x hx => hxs x (List.mem_cons_of_mem a hx))]

theorem dropWhile_append_cons (p : Char → Bool) (xs : Str) (c : Char) (ys : Str)
    (hxs : ∀ x ∈ xs, p x = true) (hc : p c = false) :
    (xs ++ c :: ys).dropWhile p = c :: ys := by
  induction xs with
  | nil => simp [List.dropWhile_cons, hc]
  | cons a as ih =>
    have ha : p a = true := hxs a (List.mem_cons_self a as)
    simp only [List.cons_append, List.dropWhile_cons, ha, if_true]
    exact ih (fun x hx => hxs x (List.mem_cons_of_mem a hx))

theorem infix_trimRight (sub s : Str) (hfix : trimRightStr sub = sub)
    (hne : sub ≠ []) (h : sub <:+: s) : sub <:+: trimRightStr s := by
  obtain ⟨u, v, huv⟩ := h
  subst huv
  by_cases hv : trimRightStr v = []
  · have e2 : trimRightStr (sub ++ v) = sub := by
      rw [trimRight_append_of_nil sub v hv, hfix]
    have e3 : trimRightStr (sub ++ v) ≠ [] := by rw [e2]; exact hne
    have e4 : trimRightStr (u ++ (sub ++ v)) = u ++ trimRightStr (sub ++ v) :=
      trimRight_append_of_ne_nil u (sub ++ v) e3
    rw [show u ++ sub ++ v = u ++ (sub ++ v) from by simp, e4, e2]
    exact ⟨u, [], by simp⟩
  · have e4 : trimRightStr (u ++ sub ++ v) = (u ++ sub) ++ trimRightStr v :=
      trimRight_append_of_ne_nil (u ++ sub) v hv
    rw [e4]
    exact ⟨u, trimRightStr v, by simp⟩

/-! ### Heading-line lemmas -/

theorem heading_head_hash (L h : Str) (hcap : headingOfLine L = some h) :
    L.head? = some '#' := by
  unfold headingOfLine at hcap
  by_cases hh : L.takeWhile (fun c => c = '#') = []
  · rw [if_pos hh] at hcap
    exact absurd hcap (Option.noConfusion)
  · cases L with
    | nil => simp at hh
    | cons a l =>
      by_cases ha : a = '#'
      · rw [ha]; rfl
      · rw [List.takeWhile_cons_of_neg (by simpa using ha)] at hh
        exact absurd rfl hh

theorem heading_ne_nil (L h : Str) (hcap : headingOfLine L = some h) :
    L ≠ [] := by
  intro hnil
  subst hnil
  have := heading_head_hash [] h hcap
  simp at this

/-- Computation of the heading regex on a decomposed line: a nonempty `#`
run, nonempty whitespace, then a rest starting with non-whitespace — the
rest is the capture. -/
theorem headingOfLine_parts (hashes w rest : Str) (hh : hashes ≠ [])
    (hhash : ∀ x ∈ hashes, x = '#') (hwne : w ≠ [])
    (hwmem : ∀ x ∈ w, isJsWs x = true)
    (hrest : rest ≠ []) (hrhead : isJsWs rest.headI = false) :
    headingOfLine (hashes ++ w ++ rest) = some rest := by
  obtain ⟨wc, w2, rfl⟩ : ∃ wc w2, w = wc :: w2 := by
    cases w with
    | nil => exact absurd rfl hwne
    | cons a l => exact ⟨a, l, rfl⟩
  obtain ⟨c0, r1, rfl⟩ : ∃ c0 r1, rest = c0 :: r1 := by
    cases rest with
    | nil => exact absurd rfl hrest
    | cons a l => exact ⟨a, l, rfl⟩
  have hc0 : isJsWs c0 = false := hrhead
  have hwc : isJsWs wc = true := hwmem wc (List.mem_cons_self wc w2)
  have hwch : ¬ wc = '#' := by
    intro hx
    rw [hx] at hwc
    exact absurd hwc (by decide)
  have hshape : hashes ++ (wc :: w2) ++ (c0 :: r1)
      = hashes ++ wc :: (w2 ++ c0 :: r1) := by simp
  have e1 : (hashes ++ wc :: (w2 ++ c0 :: r1)).takeWhile (fun c => c = '#')
      = hashes :=
    takeWhile_append_cons _ hashes wc _
      (fun x hx => by simp [hhash x hx]) (by simp [hwch])
  have e2 : (hashes ++ wc :: (w2 ++ c0 :: r1)).dropWhile (fun c => c = '#')
      = wc :: (w2 ++ c0 :: r1) :=
    dropWhile_append_cons _ hashes wc _
      (fun x hx => by simp [hhash x hx]) (by simp [hwch])
  have hshape2 : wc :: (w2 ++ c0 :: r1) = (wc :: w2) ++ c0 :: r1 := by simp
  have e3 : (wc :: (w2 ++ c0 :: r1)).takeWhile (fun c => isJsWs c)
      = wc :: w2 := by
    rw [hshape2]
    exact takeWhile_append_cons _ (wc :: w2) c0 r1
      (fun x hx => by simp [hwmem x hx]) (by simp [hc0])
  have e4 : (wc :: (w2 ++ c0 :: r1)).dropWhile (fun c => isJsWs c)
      = c0 :: r1 := by
    rw [hshape2]
    exact dropWhile_append_cons _ (wc :: w2) c0 r1
      (fun x hx => by simp [hwmem x hx]) (by simp [hc0])
  rw [hshape]
  unfold headingOfLine
  dsimp only
  rw [e1, e2, e3, e4]
  rw [if_neg hh, if_neg (by simp : ¬ (wc :: w2 : Str) = []),
    if_pos (by simp : (c0 :: r1 : Str) ≠ [])]

/-- The stub line `## ${sec}` captures exactly `sec` for a nonempty name
with no leading whitespace. -/
theorem headingOfLine_stub (sec : Str) (h1 : sec ≠ [])
    (h2 : isJsWs sec.headI = false) :
    headingOfLine ('#' :: '#' :: ' ' :: sec) = some sec := by
  have h3 := headingOfLine_parts ['#', '#'] [' '] sec (by simp)
    (by intro x hx; simpa using hx) (by simp)
    (by intro x hx; simp at hx; simp [hx, isJsWs]) h1 h2
  exact h3

/-- A heading line survives right-trimming with a right-trimmed capture,
as long as the capture is not pure whitespace. -/
theorem heading_trimRight (L h : Str) (hcap : headingOfLine L = some h)
    (hne : trimRightStr h ≠ []) :
    headingOfLine (trimRightStr L) = some (trimRightStr h) := by
  unfold headingOfLine at hcap
  set hashes := L.takeWhile (fun c => c = '#') with hHdef
  set t := L.dropWhile (fun c => c = '#') with htdef
  set w := t.takeWhile (fun c => isJsWs c) with hwdef
  set r := t.dropWhile (fun c => isJsWs c) with hrdef
  by_cases hh : hashes = []
  · rw [if_pos hh] at hcap
    exact absurd hcap (Option.noConfusion)
  rw [if_neg hh] at hcap
  by_cases hwnil : w = []
  · rw [if_pos hwnil] at hcap
    exact absurd hcap (Option.noConfusion)
  rw [if_neg hwnil] at hcap
  by_cases hrnil : r = []
  · rw [if_neg (by simp [hrnil] : ¬ r ≠ [])] at hcap
    exfalso
    apply hne
    split at hcap
    · have hcapv : h = w.drop (w.length - 1) := (Option.some.inj hcap).symm
      rw [trimRight_eq_nil_iff]
      intro c hc
      rw [hcapv] at hc
      have hcw : c ∈ w := List.drop_subset _ w hc
      rw [hwdef] at hcw
      exact List.mem_takeWhile_imp hcw
    · exact absurd hcap (Option.noConfusion)
  · rw [if_pos hrnil] at hcap
    obtain rfl : r = h := Option.some.inj hcap
    obtain ⟨a, l, hal⟩ : ∃ a l, r = a :: l := by
      cases hx : r with
      | nil => exact absurd hx hrnil
      | cons a l => exact ⟨a, l, rfl⟩
    have ha : isJsWs a = false := by
      refine dropWhile_head_not _ t a l ?_
      rw [← hrdef]
      exact hal
    have htrne : trimRightStr r ≠ [] :=
      trimRight_ne_nil_of_mem r a (by rw [hal]; exact List.mem_cons_self a l) ha
    obtain ⟨r1, htr⟩ : ∃ r1, trimRightStr r = a :: r1 := by
      have hhead : (trimRightStr r).head? = r.head? := trimRight_head r htrne
      cases htr2 : trimRightStr r with
      | nil => exact absurd htr2 htrne
      | cons b m =>
        have hb : b = a := by
          rw [htr2, hal] at hhead
          simpa using hhead
        exact ⟨m, by rw [hb]⟩
    have hLdec : L = hashes ++ t := by
      rw [hHdef, htdef]
      exact (List.takeWhile_append_dropWhile _ _).symm
    have htdec : t = w ++ r := by
      rw [hwdef, hrdef]
      exact (List.takeWhile_append_dropWhile _ _).symm
    have hLre : L = (hashes ++ w) ++ r := by
      rw [hLdec, htdec]
      simp
    have htrimL : trimRightStr L = hashes ++ w ++ trimRightStr r := by
      rw [hLre, trimRight_append_of_ne_nil (hashes ++ w) r htrne]
    rw [htrimL]
    refine headingOfLine_parts hashes w (trimRightStr r) hh ?_ hwnil ?_ htrne ?_
    · intro x hx
      rw [hHdef] at hx
      have := List.mem_takeWhile_imp hx
      simpa using this
    · intro x hx
      rw [hwdef] at hx
      exact List.mem_takeWhile_imp hx
    · rw [htr]
      exact ha

/-- A pure-whitespace capture (the backtracking case of the heading regex)
is a single whitespace character. -/
theorem heading_capture_ws (L h : Str) (hcap : headingOfLine L = some h)
    (hnil : trimRightStr h = []) : ∃ c, h = [c] ∧ isJsWs c = true := by
  unfold headingOfLine at hcap
  set hashes := L.takeWhile (fun c => c = '#') with hHdef
  set t := L.dropWhile (fun c => c = '#') with htdef
  set w := t.takeWhile (fun c => isJsWs c) with hwdef
  set r := t.dropWhile (fun c => isJsWs c) with hrdef
  by_cases hh : hashes = []
  · rw [if_pos hh] at hcap
    exact absurd hcap (Option.noConfusion)
  rw [if_neg hh] at hcap
  by_cases hwnil : w = []
  · rw [if_pos hwnil] at hcap
    exact absurd hcap (Option.noConfusion)
  rw [if_neg hwnil] at hcap
  by_cases hrnil : r = []
  · rw [if_neg (by simp [hrnil] : ¬ r ≠ [])] at hcap
    split at hcap
    · next hwlen =>
      have hcapv : h = w.drop (w.length - 1) := (Option.some.inj hcap).symm
      have hwpos : 0 < w.length := List.length_pos.mpr hwnil
      have hlen : h.length = 1 := by
        rw [hcapv, List.length_drop]
        omega
      obtain ⟨c, hc⟩ : ∃ c, h = [c] := by
        cases hx : h with
        | nil => rw [hx] at hlen; simp at hlen
        | cons a m =>
          rw [hx] at hlen
          simp at hlen
          exact ⟨a, by rw [hlen]⟩
      refine ⟨c, hc, ?_⟩
      have hcw : c ∈ w := by
        have : c ∈ h := by rw [hc]; exact List.mem_cons_self c []
        rw [hcapv] at this
        exact List.drop_subset _ w this
      rw [hwdef] at hcw
      exact List.mem_takeWhile_imp hcw
    · exact absurd hcap (Option.noConfusion)
  · rw [if_pos hrnil] at hcap
    obtain rfl : r = h := Option.some.inj hcap
    exfalso
    obtain ⟨a, l, hal⟩ : ∃ a l, r = a :: l := by
      cases hx : r with
      | nil => exact absurd hx hrnil
      | cons a l => exact ⟨a, l, rfl⟩
    have ha : isJsWs a = false := by
      refine dropWhile_head_not _ t a l ?_
      rw [← hrdef]
      exact hal
    exact trimRight_ne_nil_of_mem r a
      (by rw [hal]; exact List.mem_cons_self a l) ha hnil

/-- An infix of a one-element list is the list itself (when nonempty). -/
theorem infix_singleton (sub : Str) (x : Char) (hne : sub ≠ [])
    (h : sub <:+: [x]) : sub = [x] := by
  obtain ⟨u, v, huv⟩ := h
  have hlen := congrArg List.length huv
  simp at hlen
  have hsub : 1 ≤ sub.length := List.length_pos.mpr hne
  have hu : u = [] := List.length_eq_zero.mp (by omega)
  have hv : v = [] := List.length_eq_zero.mp (by omega)
  rw [hu, hv] at huv
  simpa using huv

/-! ### Line-structure preservation through the formatting pass -/

theorem linesOf_joinWith (ls : List Str) (hne : ls ≠ [])
    (hnl : ∀ L ∈ ls, '\n' ∉ L) :
    linesOf (joinWith ['\n'] ls) = ls := by
  induction ls with
  | nil => exact absurd rfl hne
  | cons x ys ih =>
    cases ys with
    | nil =>
      show linesOf (joinWith ['\n'] [x]) = [x]
      rw [joinWith]
      exact linesOf_no_nl x (hnl x (List.mem_cons_self x []))
    | cons y rest =>
      rw [joinWith]
      have hx : '\n' ∉ x := hnl x (List.mem_cons_self x _)
      have hshape : x ++ ['\n'] ++ joinWith ['\n'] (y :: rest)
          = x ++ '\n' :: joinWith ['\n'] (y :: rest) := by simp
      rw [hshape, linesOf_append_nl, linesOf_no_nl x hx,
        ih (by simp) (fun L hL => hnl L (List.mem_cons_of_mem x hL))]
      rfl

theorem mem_lines_surround (s L : Str) (hL : L ∈ linesOf s) :
    L ∈ linesOf (surroundHeadings s) := by
  unfold surroundHeadings
  have hblocks : ∀ M ∈ (linesOf s).flatMap
      (fun l => if isHeadingLine l then [[], l, []] else [l]), '\n' ∉ M := by
    intro M hM
    obtain ⟨l, hl, hMl⟩ := List.mem_flatMap.mp hM
    by_cases hh : isHeadingLine l
    · rw [if_pos hh] at hMl
      simp only [List.mem_cons, List.mem_singleton] at hMl
      rcases hMl with rfl | heq | rfl | h
      · simp
      · rw [heq]
        exact mem_linesOf_no_nl s l hl
      · simp
      · simp at h
    · rw [if_neg hh] at hMl
      obtain rfl : M = l := by simpa using hMl
      exact mem_linesOf_no_nl s M hl
  have hne : (linesOf s).flatMap
      (fun l => if isHeadingLine l then [[], l, []] else [l]) ≠ [] := by
    cases hls : linesOf s with
    | nil => exact absurd hls (linesOf_ne_nil s)
    | cons l ls =>
      rw [List.flatMap_cons]
      by_cases hh : isHeadingLine l
      · rw [if_pos hh]; simp
      · rw [if_neg hh]; simp
  rw [linesOf_joinWith _ hne hblocks]
  refine List.mem_flatMap.mpr ⟨L, hL, ?_⟩
  by_cases hh : isHeadingLine L
  · rw [if_pos hh]; simp
  · rw [if_neg hh]; simp

/-- Lines survive the `\n{3,}` collapse: nonempty lines remain lines,
nonempty non-first lines remain non-first, and the first line's text is
unchanged. -/
theorem collapse_lines (u : Str) :
    (linesOf (collapseNewlines u)).headI = (linesOf u).headI ∧
    (∀ L ∈ linesOf u, L ≠ [] → L ∈ linesOf (collapseNewlines u)) ∧
    (∀ L ∈ (linesOf u).tail, L ≠ [] →
      L ∈ (linesOf (collapseNewlines u)).tail) := by
  suffices H : ∀ n (u : Str), u.length ≤ n →
      (linesOf (collapseNewlines u)).headI = (linesOf u).headI ∧
      (∀ L ∈ linesOf u, L ≠ [] → L ∈ linesOf (collapseNewlines u)) ∧
      (∀ L ∈ (linesOf u).tail, L ≠ [] →
        L ∈ (linesOf (collapseNewlines u)).tail) by
    exact H u.length u le_rfl
  intro n
  induction n with
  | zero =>
    intro u hu
    obtain rfl : u = [] := List.length_eq_zero.mp (Nat.le_zero.mp hu)
    rw [collapseNewlines.eq_3]
    refine ⟨rfl, ?_, ?_⟩
    · intro L hL hLne
      exact hL
    · intro L hL hLne
      simp [linesOf] at hL
  | succ n ih =>
    intro u hu
    rcases u with _ | ⟨c, r⟩
    · rw [collapseNewlines.eq_3]
      refine ⟨rfl, ?_, ?_⟩
      · intro L hL hLne
        exact hL
      · intro L hL hLne
        simp [linesOf] at hL
    · by_cases htr : c = '\n' ∧ ∃ r2, r = '\n' :: '\n' :: r2
      · obtain ⟨rfl, r2, rfl⟩ := htr
        rw [collapseNewlines.eq_1]
        have hlen : ('\n' :: '\n' :: r2 : Str).length ≤ n := by
          simp at hu ⊢
          omega
        obtain ⟨ih1, ih2, ih3⟩ := ih ('\n' :: '\n' :: r2) hlen
        refine ⟨?_, ?_, ?_⟩
        · rw [ih1]
          rw [linesOf_cons_nl, linesOf_cons_nl, linesOf_cons_nl]
          rfl
        · intro L hL hLne
          rw [linesOf_cons_nl] at hL
          rcases List.mem_cons.mp hL with rfl | h
          · exact absurd rfl hLne
          · exact ih2 L h hLne
        · intro L hL hLne
          rw [linesOf_cons_nl] at hL
          simp only [List.tail_cons] at hL
          have hL2 : L ∈ (linesOf ('\n' :: '\n' :: r2)).tail := by
            rw [linesOf_cons_nl] at hL ⊢
            simp only [List.tail_cons]
            rcases List.mem_cons.mp hL with rfl | h
            · exact absurd rfl hLne
            · exact h
          exact ih3 L hL2 hLne
      · have hd : ∀ rest1 : List Char, c = '\n' → r = '\n' :: '\n' :: rest1
            → False := by
          intro rest1 hc hr
          exact htr ⟨hc, rest1, hr⟩
        rw [collapseNewlines.eq_2 c r hd]
        have hlen : r.length ≤ n := by
          simp at hu
          omega
        obtain ⟨ih1, ih2, ih3⟩ := ih r hlen
        by_cases hc : c = '\n'
        · subst hc
          rw [linesOf_cons_nl, linesOf_cons_nl]
          refine ⟨rfl, ?_, ?_⟩
          · intro L hL hLne
            rcases List.mem_cons.mp hL with rfl | h
            · exact absurd rfl hLne
            · exact List.mem_cons_of_mem [] (ih2 L h hLne)
          · intro L hL hLne
            simp only [List.tail_cons] at hL ⊢
            exact ih2 L hL hLne
        · rw [linesOf_cons_other c r hc, linesOf_cons_other c _ hc]
          refine ⟨?_, ?_, ?_⟩
          · rw [List.headI_cons, List.headI_cons, ih1]
          · intro L hL hLne
            rcases List.mem_cons.mp hL with rfl | h
            · refine List.mem_cons.mpr (Or.inl ?_)
              rw [ih1]
            · exact List.mem_cons_of_mem _ (ih3 L h hLne)
          · intro L hL hLne
            simp only [List.tail_cons] at hL ⊢
            exact ih3 L hL hLne

theorem mem_lines_append_right (s ins L : Str) (hL : L ∈ linesOf s)
    (hins : ins.head? = some '\n') : L ∈ linesOf (s ++ ins) := by
  obtain ⟨A, B, hdec, hA, hB⟩ := mem_linesOf_decomp s L hL
  have hnl : '\n' ∉ L := mem_linesOf_no_nl s L hL
  have hshape : s ++ ins = A ++ L ++ (B ++ ins) := by rw [hdec]; simp
  rw [hshape]
  refine decomp_mem_linesOf L A (B ++ ins) hnl hA ?_
  cases B with
  | nil => exact Or.inr (by simpa using hins)
  | cons b bs =>
    rcases hB with h | h
    · exact absurd h (List.cons_ne_nil b bs)
    · exact Or.inr (by simpa using h)

theorem mem_lines_insert (x y ins L : Str)
    (hx : x = [] ∨ x.getLast? = some '\n')
    (hins : ∃ mid, ins = '\n' :: mid ++ ['\n'])
    (hL : L ∈ linesOf (x ++ y)) : L ∈ linesOf (x ++ ins ++ y) := by
  obtain ⟨mid, rfl⟩ := hins
  have hnl : '\n' ∉ L := mem_linesOf_no_nl _ L hL
  obtain ⟨A, B, hdec, hA, hB⟩ := mem_linesOf_decomp _ L hL
  have hsplit : A ++ (L ++ B) = x ++ y := by rw [hdec]; simp
  rcases List.append_eq_append_iff.mp hsplit with ⟨a2, ha1, ha2⟩ | ⟨c2, hc1, hc2⟩
  · -- x = A ++ a2 and L ++ B = a2 ++ y
    rcases List.append_eq_append_iff.mp ha2 with ⟨u, hu1, hu2⟩ | ⟨v, hv1, hv2⟩
    · -- a2 = L ++ u, B = u ++ y : the line lies inside x
      have hxval : x = A ++ L ++ u := by rw [ha1, hu1]; simp
      have hshape : x ++ ('\n' :: mid ++ ['\n']) ++ y
          = A ++ L ++ (u ++ ('\n' :: mid ++ ['\n']) ++ y) := by
        rw [hxval]; simp
      rw [hshape]
      refine decomp_mem_linesOf L A _ hnl hA ?_
      cases u with
      | nil => exact Or.inr (by simp)
      | cons b bs =>
        have hBne : B = b :: (bs ++ y) := by rw [hu2]; simp
        rcases hB with h | h
        · rw [h] at hBne; exact absurd hBne.symm (List.cons_ne_nil _ _)
        · rw [hBne] at h
          exact Or.inr (by simpa using h)
    · -- L = a2 ++ v and y = v ++ B
      by_cases ha2nil : a2 = []
      · subst ha2nil
        have hxA : x = A := by rw [ha1]; simp
        have hLv : L = v := by simpa using hv1
        have hshape : x ++ ('\n' :: mid ++ ['\n']) ++ y
            = (x ++ '\n' :: mid ++ ['\n']) ++ L ++ B := by
          rw [hv2, ← hLv]; simp
        rw [hshape]
        refine decomp_mem_linesOf L _ B hnl (Or.inr ?_) hB
        rw [show x ++ '\n' :: mid ++ ['\n'] = (x ++ '\n' :: mid) ++ ['\n']
          from by simp]
        exact List.getLast?_concat _
      · by_cases hvnil : v = []
        · subst hvnil
          have hLa : L = a2 := by simpa using hv1
          have hyB : y = B := by simpa using hv2
          have hshape : x ++ ('\n' :: mid ++ ['\n']) ++ y
              = A ++ L ++ (('\n' :: mid ++ ['\n']) ++ B) := by
            rw [ha1, ← hLa, hyB]; simp
          rw [hshape]
          exact decomp_mem_linesOf L A _ hnl hA (Or.inr (by simp))
        · exfalso
          have hxne : x ≠ [] := by
            rw [ha1]
            intro hcon
            exact ha2nil (List.append_eq_nil.mp hcon).2
          have hxl : x.getLast? = some '\n' := by
            rcases hx with h | h
            · exact absurd h hxne
            · exact h
          have ha2l : a2.getLast? = some '\n' := by
            rw [ha1] at hxl
            rw [← List.getLast?_append_of_ne_nil A ha2nil]
            exact hxl
          have hmem : '\n' ∈ a2 := List.mem_of_mem_getLast? ha2l
          have : '\n' ∈ L := by
            rw [hv1]
            exact List.mem_append_left v hmem
          exact hnl this
  · -- A = x ++ c2 and y = c2 ++ (L ++ B) : the line lies inside y
    have hshape : x ++ ('\n' :: mid ++ ['\n']) ++ y
        = (x ++ ('\n' :: mid ++ ['\n']) ++ c2) ++ L ++ B := by
      rw [hc2]; simp
    rw [hshape]
    refine decomp_mem_linesOf L _ B hnl (Or.inr ?_) hB
    cases c2 with
    | nil =>
      rw [show x ++ ('\n' :: mid ++ ['\n']) ++ ([] : Str)
        = (x ++ '\n' :: mid) ++ ['\n'] from by simp]
      exact List.getLast?_concat _
    | cons b bs =>
      have hAl : A.getLast? = some '\n' := by
        rcases hA with h | h
        · rw [h] at hc1
          exact absurd hc1.symm (by simp)
        · exact h
      have hc2l : (b :: bs).getLast? = some '\n' := by
        rw [hc1] at hAl
        rw [← List.getLast?_append_of_ne_nil x (by simp : (b :: bs : Str) ≠ [])]
        exact hAl
      rw [show x ++ ('\n' :: mid ++ ['\n']) ++ (b :: bs)
        = (x ++ ('\n' :: mid ++ ['\n'])) ++ (b :: bs) from by simp]
      rw [List.getLast?_append_of_ne_nil _ (by simp : (b :: bs : Str) ≠ [])]
      exact hc2l

/-! ### Insertion points of `ensureRequiredSections` -/

theorem splitLine_of_none (s : Str) (t : String)
    (h : splitFirst s ['\n'] = none) :
    splitAtFirstMatchingLine s t
      = if lineMatchesTerminal s t then some ([], s) else none := by
  rw [splitAtFirstMatchingLine]
  split
  · rfl
  · next l1 rest heq => rw [h] at heq; exact absurd heq (Option.noConfusion)

theorem splitLine_of_some (s : Str) (t : String) (l1 rest : Str)
    (h : splitFirst s ['\n'] = some (l1, rest)) :
    splitAtFirstMatchingLine s t
      = if lineMatchesTerminal l1 t then some ([], s)
        else match splitAtFirstMatchingLine rest t with
          | some (a, b) => some (l1 ++ '\n' :: a, b)
          | none => none := by
  rw [splitAtFirstMatchingLine]
  split
  · next heq => rw [h] at heq; exact absurd heq (Option.noConfusion)
  · next l1' rest' heq =>
    rw [h] at heq
    obtain ⟨h1, h2⟩ : l1 = l1' ∧ rest = rest' := by
      have := Option.some.inj heq
      exact ⟨congrArg Prod.fst this, congrArg Prod.snd this⟩
    rw [← h1, ← h2]

/-- The terminal-section split cuts at a line boundary. -/
theorem splitLine_boundary (t : String) : ∀ s x y : Str,
    splitAtFirstMatchingLine s t = some (x, y) →
    s = x ++ y ∧ (x = [] ∨ x.getLast? = some '\n') := by
  suffices H : ∀ n (s : Str), s.length ≤ n → ∀ x y,
      splitAtFirstMatchingLine s t = some (x, y) →
      s = x ++ y ∧ (x = [] ∨ x.getLast? = some '\n') by
    exact fun s => H s.length s le_rfl
  intro n
  induction n with
  | zero =>
    intro s hs x y h
    obtain rfl : s = [] := List.length_eq_zero.mp (Nat.le_zero.mp hs)
    rw [splitLine_of_none _ _ (by simp [splitFirst])] at h
    by_cases hb : lineMatchesTerminal [] t
    · rw [if_pos hb] at h
      have hinj := Option.some.inj h
      have hx : x = [] := (congrArg Prod.fst hinj).symm
      have hy : y = [] := (congrArg Prod.snd hinj).symm
      exact ⟨by rw [hx, hy]; rfl, Or.inl hx⟩
    · rw [if_neg hb] at h
      exact absurd h (Option.noConfusion)
  | succ n ih =>
    intro s hs x y h
    cases hsf : splitFirst s ['\n'] with
    | none =>
      rw [splitLine_of_none _ _ hsf] at h
      by_cases hb : lineMatchesTerminal s t
      · rw [if_pos hb] at h
        have hinj := Option.some.inj h
        have hx : x = [] := (congrArg Prod.fst hinj).symm
        have hy : y = s := (congrArg Prod.snd hinj).symm
        exact ⟨by rw [hx, hy]; rfl, Or.inl hx⟩
      · rw [if_neg hb] at h
        exact absurd h (Option.noConfusion)
    | some pr =>
      obtain ⟨l1, rest⟩ := pr
      have hst : s = l1 ++ '\n' :: rest := by
        have := splitFirst_spec s ['\n'] l1 rest hsf
        simpa using this
      rw [splitLine_of_some _ _ _ _ hsf] at h
      by_cases hb : lineMatchesTerminal l1 t
      · rw [if_pos hb] at h
        have hinj := Option.some.inj h
        have hx : x = [] := (congrArg Prod.fst hinj).symm
        have hy : y = s := (congrArg Prod.snd hinj).symm
        exact ⟨by rw [hx, hy]; rfl, Or.inl hx⟩
      · rw [if_neg hb] at h
        cases hrec : splitAtFirstMatchingLine rest t with
        | none =>
          rw [hrec] at h
          exact absurd h (Option.noConfusion)
        | some ab =>
          obtain ⟨a, b⟩ := ab
          rw [hrec] at h
          have hinj := Option.some.inj h
          have hx : x = l1 ++ '\n' :: a := (congrArg Prod.fst hinj).symm
          have hy : y = b := (congrArg Prod.snd hinj).symm
          have hblen : rest.length < s.length :=
            splitFirst_length s ['\n'] (by simp) l1 rest hsf
          obtain ⟨hres, hbound⟩ := ih rest (by omega) a b hrec
          refine ⟨?_, Or.inr ?_⟩
          · rw [hst, hres, hx, hy]
            simp
          · rw [hx]
            cases a with
            | nil =>
              rw [show l1 ++ '\n' :: ([] : Str) = l1 ++ ['\n'] from by simp]
              exact List.getLast?_concat _
            | cons a0 as =>
              have hane : (a0 :: as : Str) ≠ [] := by simp
              rw [show l1 ++ '\n' :: (a0 :: as) = (l1 ++ ['\n']) ++ a0 :: as
                from by simp]
              rw [List.getLast?_append_of_ne_nil _ hane]
              rcases hbound with hnil | hlast
              · exact absurd hnil hane
              · exact hlast

theorem findTerminal_boundary (content : Str) (ts : List String) (x y : Str)
    (h : findTerminalSplit content ts = some (x, y)) :
    content = x ++ y ∧ (x = [] ∨ x.getLast? = some '\n') := by
  induction ts with
  | nil => simp [findTerminalSplit] at h
  | cons t ts2 ih =>
    rw [findTerminalSplit] at h
    cases hsp : splitAtFirstMatchingLine content t with
    | none =>
      rw [hsp] at h
      exact ih h
    | some pr =>
      rw [hsp] at h
      obtain rfl : pr = (x, y) := Option.some.inj h
      exact splitLine_boundary t content x y hsp

/-! ### The inserted stub blocks -/

theorem sectionBlock_eq (sec : String) :
    sectionBlock sec = '\n' :: ('#' :: '#' :: ' ' :: sec.toList)
      ++ '\n' :: '\n' :: ("[Content for ".toList ++ sec.toList ++ [']', '\n']) := by
  show ("\n## " ++ sec ++ "\n\n[Content for " ++ sec ++ "]\n").data
    = '\n' :: ('#' :: '#' :: ' ' :: sec.data)
      ++ '\n' :: '\n' :: ("[Content for ".data ++ sec.data ++ [']', '\n'])
  simp only [String.data_append]
  simp

theorem joinStr_nil : (([] : List Str)).join = [] := rfl

theorem joinStr_cons (a : Str) (l : List Str) : (a :: l).join = a ++ l.join := rfl

theorem joinStr_append (l1 l2 : List Str) :
    (l1 ++ l2).join = l1.join ++ l2.join :=
  List.flatten_append l1 l2

theorem join_blocks_shape (ms : List String) (hne : ms ≠ []) :
    ∃ mid, (ms.map sectionBlock).join = '\n' :: mid ++ ['\n'] := by
  have hblock : ∀ m : String, ∃ β, sectionBlock m = '\n' :: β ++ ['\n'] := by
    intro m
    refine ⟨('#' :: '#' :: ' ' :: m.toList)
      ++ '\n' :: '\n' :: ("[Content for ".toList ++ m.toList ++ [']']), ?_⟩
    rw [sectionBlock_eq]
    simp
  induction ms with
  | nil => exact absurd rfl hne
  | cons m rest ih =>
    cases rest with
    | nil =>
      obtain ⟨β, hβ⟩ := hblock m
      refine ⟨β, ?_⟩
      rw [List.map_cons, List.map_nil, joinStr_cons, joinStr_nil, hβ]
      simp
    | cons m2 rest2 =>
      obtain ⟨mid2, hmid2⟩ := ih (by simp)
      obtain ⟨β, hβ⟩ := hblock m
      refine ⟨β ++ '\n' :: '\n' :: mid2, ?_⟩
      rw [List.map_cons, joinStr_cons, hβ, hmid2]
      simp

theorem join_blocks_occ (ms : List String) (sec : String) (hmem : sec ∈ ms) :
    ∃ P Q, (ms.map sectionBlock).join
      = P ++ '\n' :: (('#' :: '#' :: ' ' :: sec.toList) ++ '\n' :: Q) := by
  obtain ⟨m1, m2, rfl⟩ := List.append_of_mem hmem
  refine ⟨(m1.map sectionBlock).join,
    '\n' :: ("[Content for ".toList ++ sec.toList ++ [']', '\n'])
      ++ (m2.map sectionBlock).join, ?_⟩
  rw [List.map_append, List.map_cons]
  rw [joinStr_append, joinStr_cons, sectionBlock_eq]
  simp

/-! ### Coverage transfer -/

theorem coversSection_iff (hs : List Str) (sec : String) :
    coversSection hs sec = true ↔
      ∃ h ∈ hs, lowerStr sec.toList <:+: lowerStr h := by
  unfold coversSection
  rw [List.any_eq_true]
  constructor
  · rintro ⟨h, hmem, hc⟩
    exact ⟨h, hmem, (containsSub_iff _ _).mp hc⟩
  · rintro ⟨h, hmem, hc⟩
    exact ⟨h, hmem, (containsSub_iff _ _).mpr hc⟩

theorem mem_extract (s L h : Str) (hL : L ∈ linesOf s)
    (hcap : headingOfLine L = some h) : h ∈ extractHeadings s :=
  List.mem_filterMap.mpr ⟨L, hL, hcap⟩

theorem not_missing_covers (content : Str) (p : ContentPattern) (sec : String)
    (hreq : sec ∈ p.requiredSections)
    (hnot : sec ∉ missingRequiredIn content p) :
    coversSection (extractHeadings content) sec = true := by
  by_contra hc
  apply hnot
  unfold missingRequiredIn
  refine List.mem_filter.mpr ⟨hreq, ?_⟩
  simp [hc]

/-- Every required section with a well-formed name (nonempty, single-line,
no leading whitespace) is covered after `ensureRequiredSections`. -/
theorem ensure_covers (content : Str) (p : ContentPattern) (sec : String)
    (hmem : sec ∈ p.requiredSections) (hne : sec.toList ≠ [])
    (hnl : '\n' ∉ sec.toList) (hfixl : trimLeftStr sec.toList = sec.toList) :
    coversSection (extractHeadings (ensureRequiredSections content p)) sec
      = true := by
  unfold ensureRequiredSections
  dsimp only
  by_cases hmiss : sec ∈ missingRequiredIn content p
  · have hlen : (missingRequiredIn content p).length > 0 := by
      cases hx : missingRequiredIn content p with
      | nil => rw [hx] at hmiss; simp at hmiss
      | cons a l => simp
    rw [if_pos hlen]
    obtain ⟨P, Q, hPQ⟩ := join_blocks_occ _ sec hmiss
    have hstubline : headingOfLine ('#' :: '#' :: ' ' :: sec.toList)
        = some sec.toList :=
      headingOfLine_stub _ hne (trimLeft_fix_head _ hfixl hne)
    have hstubnl : '\n' ∉ ('#' :: '#' :: ' ' :: sec.toList) := by
      intro hx
      have : '\n' ∈ sec.toList := by simpa using hx
      exact hnl this
    have hcov : ∀ A B : Str, (A = [] ∨ A.getLast? = some '\n') →
        (B = [] ∨ B.head? = some '\n') →
        coversSection (extractHeadings
          (A ++ ('#' :: '#' :: ' ' :: sec.toList) ++ B)) sec = true := by
      intro A B hA hB
      rw [coversSection_iff]
      exact ⟨sec.toList,
        mem_extract _ _ _ (decomp_mem_linesOf _ A B hstubnl hA hB) hstubline,
        List.infix_refl _⟩
    cases hft : findTerminalSplit content p.terminalSections with
    | none =>
      simp only [hft]
      have hshape : content ++ ((missingRequiredIn content p).map
            sectionBlock).join
          = (content ++ P ++ ['\n']) ++ ('#' :: '#' :: ' ' :: sec.toList)
            ++ ('\n' :: Q) := by
        rw [hPQ]
        simp
      rw [hshape]
      refine hcov _ _ (Or.inr ?_) (Or.inr rfl)
      rw [show content ++ P ++ ['\n'] = (content ++ P) ++ ['\n'] from by simp]
      exact List.getLast?_concat _
    | some pr =>
      obtain ⟨xx, yy⟩ := pr
      simp only [hft]
      have hshape : xx ++ ((missingRequiredIn content p).map
            sectionBlock).join ++ yy
          = (xx ++ P ++ ['\n']) ++ ('#' :: '#' :: ' ' :: sec.toList)
            ++ ('\n' :: (Q ++ yy)) := by
        rw [hPQ]
        simp
      rw [hshape]
      refine hcov _ _ (Or.inr ?_) (Or.inr rfl)
      rw [show xx ++ P ++ ['\n'] = (xx ++ P) ++ ['\n'] from by simp]
      exact List.getLast?_concat _
  · have hcov0 : coversSection (extractHeadings content) sec = true :=
      not_missing_covers content p sec hmem hmiss
    rw [coversSection_iff] at hcov0
    obtain ⟨h0, hh0, hinf⟩ := hcov0
    obtain ⟨L, hLmem, hLcap⟩ := List.mem_filterMap.mp hh0
    by_cases hlen : (missingRequiredIn content p).length > 0
    · rw [if_pos hlen]
      have hmiss_ne : missingRequiredIn content p ≠ [] := by
        intro hx
        rw [hx] at hlen
        simp at hlen
      obtain ⟨mid, hmid⟩ := join_blocks_shape _ hmiss_ne
      cases hft : findTerminalSplit content p.terminalSections with
      | none =>
        simp only [hft]
        have hL2 : L ∈ linesOf (content
            ++ ((missingRequiredIn content p).map sectionBlock).join) :=
          mem_lines_append_right content _ L hLmem (by rw [hmid]; rfl)
        rw [coversSection_iff]
        exact ⟨h0, mem_extract _ _ _ hL2 hLcap, hinf⟩
      | some pr =>
        obtain ⟨xx, yy⟩ := pr
        obtain ⟨hcontent, hbound⟩ := findTerminal_boundary content _ xx yy hft
        simp only [hft]
        have hL2 : L ∈ linesOf (xx
            ++ ((missingRequiredIn content p).map sectionBlock).join ++ yy) :=
          mem_lines_insert xx yy _ L hbound ⟨mid, hmid⟩
            (by rw [← hcontent]; exact hLmem)
        rw [coversSection_iff]
        exact ⟨h0, mem_extract _ _ _ hL2 hLcap, hinf⟩
    · rw [if_neg hlen]
      rw [coversSection_iff]
      exact ⟨h0, hh0, hinf⟩

/-! ### Survival of heading lines through `applyFormattingGuidelines` -/

/-- A covered heading line survives the final trim-and-terminate step of
the formatting pass. -/
theorem trim_preserves_heading (f L h0 : Str) (sec : String)
    (hLmem : L ∈ linesOf f) (hLcap : headingOfLine L = some h0)
    (hinf : lowerStr sec.toList <:+: lowerStr h0)
    (hne : sec.toList ≠ []) (hfixr : trimRightStr sec.toList = sec.toList) :
    ∃ L3 h3, L3 ∈ linesOf (trimStr f ++ ['\n']) ∧
      headingOfLine L3 = some h3 ∧ lowerStr sec.toList <:+: lowerStr h3 := by
  obtain ⟨A, B, hdec, hA, hB⟩ := mem_linesOf_decomp f L hLmem
  have hnlL : '\n' ∉ L := mem_linesOf_no_nl f L hLmem
  have hlsec_ne : lowerStr sec.toList ≠ [] := by
    unfold lowerStr
    simp only [ne_eq, List.map_eq_nil_iff]
    exact hne
  have hlsec_fix : trimRightStr (lowerStr sec.toList) = lowerStr sec.toList := by
    rw [← lower_trimRight, hfixr]
  have hLhead : L.head? = some '#' := heading_head_hash L h0 hLcap
  have hLhash_mem : '#' ∈ L := by
    cases L with
    | nil => simp at hLhead
    | cons a l =>
      obtain rfl : a = '#' := by simpa using hLhead
      exact List.mem_cons_self _ _
  have hLtrimR_ne : trimRightStr L ≠ [] :=
    trimRight_ne_nil_of_mem L '#' hLhash_mem (by decide)
  have hh0ne : trimRightStr h0 ≠ [] := by
    intro hzero
    obtain ⟨c, hc, hcw⟩ := heading_capture_ws L h0 hLcap hzero
    subst hc
    have hsing : lowerStr sec.toList = [jsToLower c] :=
      infix_singleton _ _ hlsec_ne (by simpa [lowerStr] using hinf)
    obtain ⟨c0, hc0, hjeq⟩ : ∃ c0, sec.toList = [c0]
        ∧ jsToLower c0 = jsToLower c := by
      cases hx : sec.toList with
      | nil => exact absurd hx hne
      | cons a l =>
        have hsing2 : lowerStr (a :: l) = [jsToLower c] := by
          rw [← hx]
          exact hsing
        simp [lowerStr] at hsing2
        exact ⟨a, by rw [hsing2.2], hsing2.1⟩
    have hwc0 : isJsWs c0 = true := by
      rw [← isJsWs_jsToLower c0, hjeq, isJsWs_jsToLower c]
      exact hcw
    rw [hc0] at hfixr
    have hnil : trimRightStr [c0] = [] := by
      rw [trimRight_eq_nil_iff]
      intro x hx2
      obtain rfl : x = c0 := by simpa using hx2
      exact hwc0
    rw [hnil] at hfixr
    exact (List.cons_ne_nil c0 []) hfixr.symm
  have main : ∀ L2 h2 B2 : Str, trimRightStr f = A ++ L2 ++ B2 →
      headingOfLine L2 = some h2 → lowerStr sec.toList <:+: lowerStr h2 →
      (B2 = [] ∨ B2.head? = some '\n') → '\n' ∉ L2 →
      ∃ L3 h3, L3 ∈ linesOf (trimStr f ++ ['\n']) ∧
        headingOfLine L3 = some h3 ∧ lowerStr sec.toList <:+: lowerStr h3 := by
    intro L2 h2 B2 htR hcap2 hinf2 hB2 hnl2
    have hL2head : L2.head? = some '#' := heading_head_hash _ _ hcap2
    have hL2fix : trimLeftStr L2 = L2 := trimLeft_of_head L2 '#' hL2head (by decide)
    have hL2ne : L2 ≠ [] := heading_ne_nil _ _ hcap2
    have hBext : (B2 ++ ['\n']).head? = some '\n' ∨ B2 ++ ['\n'] = [] := by
      rcases hB2 with rfl | hh
      · exact Or.inl rfl
      · cases B2 with
        | nil => exact Or.inl rfl
        | cons b bs => exact Or.inl (by simpa using hh)
    refine ⟨L2, h2, ?_, hcap2, hinf2⟩
    unfold trimStr
    by_cases hAt : trimLeftStr A = []
    · have htL : trimLeftStr (trimRightStr f) = L2 ++ B2 := by
        rw [htR, show A ++ L2 ++ B2 = A ++ (L2 ++ B2) from by simp,
          trimLeft_append_of_nil A _ hAt,
          trimLeft_append_of_ne_nil L2 B2 (by rw [hL2fix]; exact hL2ne), hL2fix]
      rw [htL]
      rw [show L2 ++ B2 ++ ['\n'] = [] ++ L2 ++ (B2 ++ ['\n']) from by simp]
      refine decomp_mem_linesOf L2 [] (B2 ++ ['\n']) hnl2 (Or.inl rfl) ?_
      rcases hBext with hh | hh
      · exact Or.inr hh
      · exact Or.inl hh
    · have htL : trimLeftStr (trimRightStr f)
          = trimLeftStr A ++ (L2 ++ B2) := by
        rw [htR, show A ++ L2 ++ B2 = A ++ (L2 ++ B2) from by simp,
          trimLeft_append_of_ne_nil A _ hAt]
      rw [htL]
      rw [show trimLeftStr A ++ (L2 ++ B2) ++ ['\n']
        = trimLeftStr A ++ L2 ++ (B2 ++ ['\n']) from by simp]
      refine decomp_mem_linesOf L2 (trimLeftStr A) (B2 ++ ['\n']) hnl2
        (Or.inr ?_) ?_
      · have hAne : A ≠ [] := by
          intro hx
          rw [hx] at hAt
          exact hAt rfl
        have hAl : A.getLast? = some '\n' := by
          rcases hA with h | h
          · exact absurd h hAne
          · exact h
        rw [trimLeft_getLast A hAt]
        exact hAl
      · rcases hBext with hh | hh
        · exact Or.inr hh
        · exact Or.inl hh
  by_cases hBt : trimRightStr B = []
  · have htR : trimRightStr f = A ++ trimRightStr L := by
      rw [hdec, trimRight_append_of_nil (A ++ L) B hBt,
        trimRight_append_of_ne_nil A L hLtrimR_ne]
    have hcap2 : headingOfLine (trimRightStr L) = some (trimRightStr h0) :=
      heading_trimRight L h0 hLcap hh0ne
    have hinf2 : lowerStr sec.toList <:+: lowerStr (trimRightStr h0) := by
      rw [lower_trimRight]
      exact infix_trimRight _ _ hlsec_fix hlsec_ne hinf
    have hnl2 : '\n' ∉ trimRightStr L := by
      intro hx
      obtain ⟨w, hw⟩ := prefix_trimRight L
      exact hnlL (by rw [← hw]; exact List.mem_append_left w hx)
    exact main (trimRightStr L) (trimRightStr h0) [] (by rw [htR]; simp) hcap2
      hinf2 (Or.inl rfl) hnl2
  · have htR : trimRightStr f = A ++ L ++ trimRightStr B := by
      rw [hdec, trimRight_append_of_ne_nil (A ++ L) B hBt]
    have hBne : B ≠ [] := by
      intro hx
      rw [hx] at hBt
      exact hBt rfl
    have hB2h : (trimRightStr B).head? = some '\n' := by
      rw [trimRight_head B hBt]
      rcases hB with h | h
      · exact absurd h hBne
      · exact h
    exact main L h0 (trimRightStr B) htR hLcap hinf (Or.inr hB2h) hnlL

theorem format_covers (s : Str) (sec : String) (hne : sec.toList ≠ [])
    (hfixr : trimRightStr sec.toList = sec.toList)
    (hcov : coversSection (extractHeadings s) sec = true) :
    coversSection (extractHeadings (applyFormattingGuidelines s)) sec
      = true := by
  rw [coversSection_iff] at hcov
  obtain ⟨h0, hh0, hinf⟩ := hcov
  obtain ⟨L, hLmem, hLcap⟩ := List.mem_filterMap.mp hh0
  have hLne : L ≠ [] := heading_ne_nil _ _ hLcap
  have h1 : L ∈ linesOf (surroundHeadings s) := mem_lines_surround s L hLmem
  have h2 : L ∈ linesOf (collapseNewlines (surroundHeadings s)) :=
    (collapse_lines (surroundHeadings s)).2.1 L h1 hLne
  unfold applyFormattingGuidelines
  dsimp only
  have h3 : L ∈ linesOf
      (if (collapseNewlines (surroundHeadings s)).getLast? = some '\n'
       then collapseNewlines (surroundHeadings s)
       else collapseNewlines (surroundHeadings s) ++ ['\n']) := by
    by_cases hg : (collapseNewlines (surroundHeadings s)).getLast? = some '\n'
    · rw [if_pos hg]
      exact h2
    · rw [if_neg hg]
      rw [show collapseNewlines (surroundHeadings s) ++ ['\n']
        = collapseNewlines (surroundHeadings s) ++ '\n' :: [] from rfl,
        linesOf_append_nl]
      exact List.mem_append_left _ h2
  obtain ⟨L3, h3v, hmem3, hcap3, hinf3⟩ :=
    trim_preserves_heading _ L h0 sec h3 hLcap hinf hne hfixr
  rw [coversSection_iff]
  exact ⟨h3v, mem_extract _ _ _ hmem3 hcap3, hinf3⟩

/-- The pattern exercising the leading-whitespace section name `" A"`. -/
def c10pattern : ContentPattern where
  name := "Spaced Section"
  id := "spaced-section"
  purpose := "p"
  description := "d"
  requiredSections := [" A"]
  sectionOrder := []
  terminalSections := []
  markdownTemplate := "# Title"

/-! ### Concrete inputs used by the witnesses and counterexamples -/

/-- The two malformed-response inputs C3 turns on. -/
def c3resp1 : String := "```json\nnot json\n``` \x7b\"a\":1\x7d"

def c3resp2 : String := "x\x7b\"a\":1\x7d y \x7b\"b\":2\x7d"

/-- C4: a response whose JSON parses but lacks the schema's required
fields. -/
def c4resp : String := "\x7b\"foo\": 1\x7d"

/-- A content-strategy response whose fenced JSON is malformed (truncated)
though it plainly attempts an UPDATE decision. -/
def c1resp : String := "```json\n\x7b\"action\": \"update\",\n```"

/-- The oracle of a run whose successful ContentStrategy output violates
branch exclusivity: action CREATE together with a `targetFile`. -/
def c1oracle : StepId → String
  | .directory => "\x7b\"selectedDirectory\": \"docs\"\x7d"
  | .strategy => "\x7b\"action\": \"CREATE\", \"targetFile\": \"x.md\"\x7d"
  | .patternSel => "\x7b\"patternId\": \"technical-guide\"\x7d"
  | .generation => "\x7b\"content\": \"hi\", \"filename\": \"f.md\"\x7d"
  | .update => ""

/-- Oracle of a complete CREATE run whose pattern-selection output names a
pattern that is not in the catalog. -/
def c5oracle : StepId → String
  | .directory => "\x7b\"selectedDirectory\": \"docs\"\x7d"
  | .strategy => "\x7b\"action\": \"CREATE\"\x7d"
  | .patternSel => "\x7b\"patternId\": \"nope\"\x7d"
  | .generation => "\x7b\"content\": \"hi\", \"filename\": \"f.md\"\x7d"
  | .update => ""

/-- Oracle of a run failing at the content-strategy step. -/
def c2oracle : StepId → String
  | .directory => "\x7b\"selectedDirectory\": \"docs\"\x7d"
  | _ => "no json at all"

/-- A well-formed standards file whose `contentTypes` list is empty. -/
def c7standards : String := "\x7b\"contentTypes\": []\x7d"

/-- A standards file whose `contentTypes` is a falsy non-array value. -/
def c7falsy : String := "\x7b\"contentTypes\": \"\"\x7d"

/-- A standards file whose `contentTypes` is a truthy non-array value. -/
def c7bogus : String := "\x7b\"contentTypes\": 5\x7d"


/-! ### Theorems -/

/-- C3: the claimed "first strategy that yields valid JSON wins, an
invalid candidate yields to the next strategy" is false on the code.
First input: the fenced block's contents are not valid JSON, and
extraction throws even though a later strategy's candidate (`{"a":1}`)
parses.  Second input: strategy (c) is not balanced-bracket matching but
the greedy first-`{`-to-last-`}` span, which is invalid JSON here even
though the balanced prefix `{"a":1}` parses. -/
theorem C3_counterexample :
    (matchFencedJson c3resp1.toList = some "not json".toList ∧
     parseJsonText "not json".toList = none ∧
     parseJsonText "\x7b\"a\":1\x7d".toList = some (.obj [("a", .num "1")]) ∧
     (parseJsonResponse c3resp1.toList).isOk = false) ∧
    (matchFencedJson c3resp2.toList = none ∧
     parseJsonText c3resp2.toList = none ∧
     matchBraces c3resp2.toList = some "\x7b\"a\":1\x7d y \x7b\"b\":2\x7d".toList ∧
     (parseJsonResponse c3resp2.toList).isOk = false) :=
  ⟨⟨rfl, rfl, rfl, rfl⟩, ⟨rfl, rfl, rfl, rfl⟩⟩

/-- C3 (amended): extraction tries (a) the fenced ` ```json ` block, whose
candidate is then committal — parsed successfully it wins, unparseable it
throws (no fallthrough); with no fenced block, (b) the whole response;
only (b)'s failure falls through to (c), the span from the first `'{'` to
the last `'}'` (greedy, not balanced). -/
theorem C3_extraction_order :
    (∀ r inner j, matchFencedJson r = some inner → parseJsonText inner = some j →
      parseJsonResponse r = .ok j) ∧
    (∀ r inner, matchFencedJson r = some inner → parseJsonText inner = none →
      parseJsonResponse r = .error "SyntaxError: JSON.parse") ∧
    (∀ r j, matchFencedJson r = none → parseJsonText r = some j →
      parseJsonResponse r = .ok j) ∧
    (∀ r m j, matchFencedJson r = none → parseJsonText r = none →
      matchBraces r = some m → parseJsonText m = some j →
      parseJsonResponse r = .ok j) ∧
    (∀ r, matchFencedJson r = none → parseJsonText r = none →
      matchBraces r = none →
      parseJsonResponse r = .error "Could not parse JSON from response") ∧
    (∀ r m, matchBraces r = some m → ∃ pre mid post, r = pre ++ m ++ post ∧
      '{' ∉ pre ∧ '}' ∉ post ∧ m = '{' :: (mid ++ ['}'])) := by
  refine ⟨?_, ?_, ?_, ?_, ?_, ?_⟩
  · intro r inner j h1 h2
    simp [parseJsonResponse, h1, h2]
  · intro r inner h1 h2
    simp [parseJsonResponse, h1, h2]
  · intro r j h1 h2
    simp [parseJsonResponse, h1, h2]
  · intro r m j h1 h2 h3 h4
    simp [parseJsonResponse, h1, h2, h3, h4]
  · intro r h1 h2 h3
    simp [parseJsonResponse, h1, h2, h3]
  · intro r m h
    exact matchBraces_spec r m h

theorem C3_extraction_order_witness :
    parseJsonResponse "```json \x7b\x7d ```".toList = .ok (.obj []) :=
  C3_extraction_order.1 _ "\x7b\x7d".toList _ rfl rfl

/-- C4: the claimed required-field validation does not exist: the
directory-selection step reports success on `{"foo": 1}`, whose data has
no `selectedDirectory`. -/
theorem C4_counterexample :
    (selectDirectoryStep c4resp).success = true ∧
    (selectDirectoryStep c4resp).data = some (.obj [("foo", .num "1")]) ∧
    jsGetField ((selectDirectoryStep c4resp).data.getD .null) "selectedDirectory"
      = none :=
  ⟨rfl, rfl, rfl⟩

/-- C4 (amended): a step's success reflects JSON extraction alone — parse
failures are caught and returned as `success:false` with the error detail
(not thrown), and a successful parse is passed on unvalidated, required
fields unchecked. -/
theorem C4_no_schema_validation :
    (∀ resp j, parseJsonResponse resp.toList = .ok j →
      selectDirectoryStep resp
        = { success := true, data := some j, response := resp }) ∧
    (∀ resp e, parseJsonResponse resp.toList = .error e →
      selectDirectoryStep resp
        = { success := false, error := some e, response := resp }) ∧
    (∀ existing resp j, parseJsonResponse resp.toList = .ok j →
      determineStrategyStep existing resp
        = { success := true, data := some j, response := resp }) ∧
    (∀ existing resp e, parseJsonResponse resp.toList = .error e →
      determineStrategyStep existing resp
        = { success := false, error := some e, response := resp }) ∧
    (∀ resp, (selectDirectoryStep resp).success = (parseJsonResponse resp.toList).isOk) := by
  refine ⟨?_, ?_, ?_, ?_, ?_⟩
  · intro resp j h
    have h' : parseJsonResponse resp.data = .ok j := h
    simp [selectDirectoryStep, runStep, h']
  · intro resp e h
    have h' : parseJsonResponse resp.data = .error e := h
    simp [selectDirectoryStep, runStep, h']
  · intro existing resp j h
    have h' : parseJsonResponse resp.data = .ok j := h
    simp [determineStrategyStep, runStep, h']
  · intro existing resp e h
    have h' : parseJsonResponse resp.data = .error e := h
    simp [determineStrategyStep, runStep, h']
  · intro resp
    cases h : parseJsonResponse resp.toList with
    | ok j =>
      have h' : parseJsonResponse resp.data = .ok j := h
      simp [selectDirectoryStep, runStep, h', Except.isOk, Except.toBool]
    | error e =>
      have h' : parseJsonResponse resp.data = .error e := h
      simp [selectDirectoryStep, runStep, h', Except.isOk, Except.toBool]

theorem C4_no_schema_validation_witness :
    selectDirectoryStep "\x7b\"x\": 2\x7d"
      = { success := true, data := some (.obj [("x", .num "2")]),
          response := "\x7b\"x\": 2\x7d" } :=
  C4_no_schema_validation.1 _ _ rfl

/-- C1 is false on the code, twice over.
`CopilotOrchestrationService.parseContentStrategy` maps a malformed UPDATE
decision (a fenced block that does not parse) to the silent CREATE
fallback instead of failing.  And `SequentialOrchestrationService` runs no
branch-exclusivity check: a successful strategy output carrying both
`action: CREATE` and a `targetFile` does not fail the run — the run
completes and writes a file. -/
theorem C1_counterexample :
    (matchFencedJson c1resp.toList = some "\x7b\"action\": \"update\",".toList ∧
     parseJsonText "\x7b\"action\": \"update\",".toList = none ∧
     parseContentStrategy c1resp = strategyFallback ∧
     strategyFallback.action = "create") ∧
    (jsGetField ((runStep (c1oracle .strategy)).data.getD .null) "action"
        = some (.str "CREATE") ∧
     jsGetStr ((runStep (c1oracle .strategy)).data.getD .null) "targetFile"
        = some "x.md" ∧
     (executeWorkflow c1oracle [] ⟨[]⟩).1.success = true ∧
     (executeWorkflow c1oracle [] ⟨[]⟩).1.error = none) :=
  ⟨⟨rfl, rfl, rfl, rfl⟩, ⟨rfl, rfl, rfl, rfl⟩⟩

/-- C1 (amended): what the code actually guarantees.
(a) `parseContentStrategy` yields the CREATE fallback whenever the
response has no fenced JSON block or the block does not parse, and maps
any `action` other than the exact string `'update'` to `'create'`.
(b) The Copilot update path does fail on a missing `targetFile`
(`updateExistingContent` throws before reading or writing).
(c) In `SequentialOrchestrationService`, an UPDATE-branch run whose
successful strategy output lacks a string `targetFile` fails (via the
`TypeError` from `path.join`) with the filesystem untouched — but no
branch-exclusivity validation exists: a CREATE output carrying a
`targetFile` proceeds normally (witnessed by `C1_counterexample`). -/
theorem C1_strategy_contract :
    (∀ resp, matchFencedJson resp.toList = none →
      parseContentStrategy resp = strategyFallback) ∧
    (∀ resp inner, matchFencedJson resp.toList = some inner →
      parseJsonText inner = none →
      parseContentStrategy resp = strategyFallback) ∧
    (∀ resp inner j, matchFencedJson resp.toList = some inner →
      parseJsonText inner = some j →
      jsEqStrVal (jsGetField j "action") "update" = false →
      (parseContentStrategy resp).action = "create") ∧
    (∀ cs : CopilotContentStrategy, cs.targetFile = none →
      updateExistingContentGuard cs
        = .error "Target file not specified for update") ∧
    (∀ (oracle : StepId → String) (catalog : List ContentPattern) (fs : FS),
      stepOk (runStep (oracle .directory)) = true →
      stepOk (runStep (oracle .strategy)) = true →
      jsEqStrVal (jsGetField ((runStep (oracle .strategy)).data.getD .null)
        "action") "CREATE" = false →
      jsGetStr ((runStep (oracle .strategy)).data.getD .null) "targetFile"
        = none →
      (executeWorkflow oracle catalog fs).1.success = false ∧
      (executeWorkflow oracle catalog fs).2 = fs ∧
      (executeWorkflow oracle catalog fs).1.error
        = some "TypeError: path.join arguments must be strings") := by
  refine ⟨?_, ?_, ?_, ?_, ?_⟩
  · intro resp h
    have h' : matchFencedJson resp.data = none := h
    simp [parseContentStrategy, h']
  · intro resp inner h1 h2
    have h1' : matchFencedJson resp.data = some inner := h1
    simp [parseContentStrategy, h1', h2]
  · intro resp inner j h1 h2 h3
    have h1' : matchFencedJson resp.data = some inner := h1
    simp [parseContentStrategy, h1', h2, h3]
  · intro cs h
    simp [updateExistingContentGuard, h]
  · intro oracle catalog fs h1 h2 h3 h4
    have h1' : stepOk (selectDirectoryStep (oracle .directory)) = true := h1
    have h2' : ∀ existing, stepOk (determineStrategyStep existing (oracle .strategy)) = true :=
      fun _ => h2
    have h3' : ∀ existing, jsEqStrVal (jsGetField
        ((determineStrategyStep existing (oracle .strategy)).data.getD .null)
        "action") "CREATE" = false := fun _ => h3
    have h4' : ∀ existing, jsGetStr
        ((determineStrategyStep existing (oracle .strategy)).data.getD .null)
        "targetFile" = none := fun _ => h4
    unfold executeWorkflow
    simp only [h1', h2', h3', h4', Bool.not_true, Bool.false_eq_true,
      if_false, if_neg, Bool.not_eq_true]
    cases hsd : jsGetStr ((selectDirectoryStep (oracle .directory)).data.getD
        .null) "selectedDirectory" with
    | none => simp [failResult]
    | some d => simp [failResult]

theorem C1_strategy_contract_witness :
    parseContentStrategy "no json here" = strategyFallback :=
  C1_strategy_contract.1 "no json here" rfl


/-- C5 is false on the code: a `patternId` matching no catalog entry
(`getPatternById` is `undefined` on it) is not rejected — the run carries
it into content generation, succeeds, and writes the file. -/
theorem C5_counterexample :
    getPatternById defaultContentTypes "nope" = none ∧
    jsGetStr ((runStep (c5oracle .patternSel)).data.getD .null) "patternId"
      = some "nope" ∧
    (executeWorkflow c5oracle defaultContentTypes ⟨[]⟩).1.steps.patternSelection
      = some (runStep (c5oracle .patternSel)) ∧
    (executeWorkflow c5oracle defaultContentTypes ⟨[]⟩).1.success = true ∧
    (executeWorkflow c5oracle defaultContentTypes ⟨[]⟩).1.filePath
      = some "docs/f.md" :=
  ⟨rfl, rfl, rfl, rfl, rfl⟩

theorem lookup_append_self {β : Type} (l : List (String × β)) (d : String)
    (b : β) : (List.lookup d (l ++ [(d, b)])).isSome := by
  induction l with
  | nil => simp [List.lookup]
  | cons kv rest ih =>
    simp only [List.cons_append, List.lookup]
    cases hk : d == kv.1
    · simpa using ih
    · simp

theorem lookup_mkdirFS (fs : FS) (d : String) :
    (List.lookup d (mkdirFS fs d).dirs).isSome := by
  unfold mkdirFS
  cases h : List.lookup d fs.dirs with
  | some v => simp [h]
  | none => simpa [h] using lookup_append_self fs.dirs d []

/-- C5 (amended): `getPatternById` is `undefined` exactly on ids matching
no catalog entry; a failed lookup is carried forward, not rejected — the
generation step's result ignores it, and a CREATE run whose pattern id is
unknown still succeeds end to end. -/
theorem C5_pattern_lookup :
    (∀ (catalog : List ContentPattern) (id : String),
      getPatternById catalog id = none ↔ ∀ p ∈ catalog, ¬ p.id = id) ∧
    (∀ (catalog : List ContentPattern) (pdata : Json) (resp : String),
      generateContentStep catalog pdata resp = runStep resp) ∧
    (∀ (oracle : StepId → String) (catalog : List ContentPattern) (fs : FS)
      (d fn ct : String),
      stepOk (runStep (oracle .directory)) = true →
      stepOk (runStep (oracle .strategy)) = true →
      jsEqStrVal (jsGetField ((runStep (oracle .strategy)).data.getD .null)
        "action") "CREATE" = true →
      stepOk (runStep (oracle .patternSel)) = true →
      stepOk (runStep (oracle .generation)) = true →
      (match jsGetStr ((runStep (oracle .patternSel)).data.getD .null)
          "patternId" with
        | some id => getPatternById catalog id
        | none => none) = none →
      jsGetStr ((runStep (oracle .directory)).data.getD .null)
        "selectedDirectory" = some d →
      jsGetStr ((runStep (oracle .generation)).data.getD .null) "filename"
        = some fn →
      jsGetStr ((runStep (oracle .generation)).data.getD .null) "content"
        = some ct →
      (executeWorkflow oracle catalog fs).1.success = true ∧
      (executeWorkflow oracle catalog fs).1.steps.patternSelection
        = some (runStep (oracle .patternSel))) := by
  refine ⟨?_, ?_, ?_⟩
  · intro catalog id
    unfold getPatternById
    rw [List.find?_eq_none]
    constructor
    · intro h p hp
      have := h p hp
      simpa using this
    · intro h p hp
      simpa using h p hp
  · intro catalog pdata resp
    rfl
  · intro oracle catalog fs d fn ct h1 h2 h3 h4 h5 _hlook hd hfn hct
    have h1' : stepOk (selectDirectoryStep (oracle .directory)) = true := h1
    have h2' : ∀ e, stepOk (determineStrategyStep e (oracle .strategy)) = true :=
      fun _ => h2
    have h3' : ∀ e, jsEqStrVal (jsGetField
        ((determineStrategyStep e (oracle .strategy)).data.getD .null)
        "action") "CREATE" = true := fun _ => h3
    have h4' : stepOk (selectPatternStep catalog (oracle .patternSel)) = true := h4
    have h5' : ∀ pd, stepOk (generateContentStep catalog pd (oracle .generation))
        = true := fun _ => h5
    have hd' : jsGetStr ((selectDirectoryStep (oracle .directory)).data.getD
        .null) "selectedDirectory" = some d := hd
    have hfn' : ∀ pd, jsGetStr ((generateContentStep catalog pd
        (oracle .generation)).data.getD .null) "filename" = some fn :=
      fun _ => hfn
    have hct' : ∀ pd, jsGetStr ((generateContentStep catalog pd
        (oracle .generation)).data.getD .null) "content" = some ct :=
      fun _ => hct
    unfold executeWorkflow
    simp only [h1', h2', h3', h4', h5', hd', hfn', hct', Bool.not_true,
      Bool.false_eq_true, if_false, if_true]
    obtain ⟨entries, he⟩ := Option.isSome_iff_exists.mp (lookup_mkdirFS fs d)
    simp [writeFS, he]
    rfl

theorem C5_pattern_lookup_witness :
    getPatternById defaultContentTypes "nosuch" = none ↔
      ∀ p ∈ defaultContentTypes, ¬ p.id = "nosuch" :=
  C5_pattern_lookup.1 defaultContentTypes "nosuch"

theorem exec_dir_recorded (o : StepId → String) (c : List ContentPattern)
    (fs : FS) :
    (executeWorkflow o c fs).1.steps.directorySelection
      = some (selectDirectoryStep (o .directory)) := by
  unfold executeWorkflow
  dsimp only
  repeat' split
  all_goals rfl

theorem exec_strat_recorded (o : StepId → String) (c : List ContentPattern)
    (fs : FS) (h : stepOk (selectDirectoryStep (o .directory)) = true) :
    (executeWorkflow o c fs).1.steps.contentStrategy
      = some (determineStrategyStep
          (readDirectoryContents fs
            (jsGetStr ((selectDirectoryStep (o .directory)).data.getD .null)
              "selectedDirectory"))
          (o .strategy)) := by
  unfold executeWorkflow
  dsimp only
  simp only [h, not_true, if_false]
  repeat' split
  all_goals rfl

theorem exec_pat_recorded (o : StepId → String) (c : List ContentPattern)
    (fs : FS) (h1 : stepOk (selectDirectoryStep (o .directory)) = true)
    (h2 : stepOk (runStep (o .strategy)) = true)
    (h3 : jsEqStrVal (jsGetField ((runStep (o .strategy)).data.getD .null)
      "action") "CREATE" = true) :
    (executeWorkflow o c fs).1.steps.patternSelection
      = some (selectPatternStep c (o .patternSel)) := by
  have h2' : ∀ e, stepOk (determineStrategyStep e (o .strategy)) = true :=
    fun _ => h2
  have h3' : ∀ e, jsEqStrVal (jsGetField
      ((determineStrategyStep e (o .strategy)).data.getD .null) "action")
      "CREATE" = true := fun _ => h3
  unfold executeWorkflow
  dsimp only
  simp only [h1, h2', h3', not_true, if_false, if_true]
  repeat' split
  all_goals rfl

theorem exec_fs_unchanged (o : StepId → String) (c : List ContentPattern)
    (fs : FS) :
    (executeWorkflow o c fs).1.success = false →
    (∀ r, (executeWorkflow o c fs).1.steps.contentGeneration = some r →
      stepOk r = false) →
    (executeWorkflow o c fs).2 = fs := by
  unfold executeWorkflow
  dsimp only
  repeat' split
  all_goals intro h1 h2
  any_goals rfl
  any_goals simp at h1
  all_goals have hx := h2 _ rfl
  all_goals simp only [not_not] at *
  all_goals rw [hx] at *
  all_goals simp_all

/-- C2: a run that fails at one of the pipeline steps proper (directory
selection, content strategy, pattern selection, content generation,
content update — as opposed to the terminal artifact write) leaves the
filesystem exactly as it was, and the result still carries the
`StepResult` of every step that was executed: the directory step always,
the strategy step whenever the directory step passed, the pattern step
whenever the strategy passed with action CREATE.  The step-failure
condition is expressed on the result: the run failed and any recorded
generation/update step result is itself failed (runs that fail *after* a
passed generation step fail in the write phase, which the claim
excludes). -/
theorem C2_no_partial_writes :
    (∀ (o : StepId → String) (c : List ContentPattern) (fs : FS),
      (executeWorkflow o c fs).1.steps.directorySelection
        = some (selectDirectoryStep (o .directory))) ∧
    (∀ (o : StepId → String) (c : List ContentPattern) (fs : FS),
      stepOk (selectDirectoryStep (o .directory)) = true →
      (executeWorkflow o c fs).1.steps.contentStrategy
        = some (determineStrategyStep
            (readDirectoryContents fs
              (jsGetStr ((selectDirectoryStep (o .directory)).data.getD .null)
                "selectedDirectory"))
            (o .strategy))) ∧
    (∀ (o : StepId → String) (c : List ContentPattern) (fs : FS),
      stepOk (selectDirectoryStep (o .directory)) = true →
      stepOk (runStep (o .strategy)) = true →
      jsEqStrVal (jsGetField ((runStep (o .strategy)).data.getD .null)
        "action") "CREATE" = true →
      (executeWorkflow o c fs).1.steps.patternSelection
        = some (selectPatternStep c (o .patternSel))) ∧
    (∀ (o : StepId → String) (c : List ContentPattern) (fs : FS),
      (executeWorkflow o c fs).1.success = false →
      (∀ r, (executeWorkflow o c fs).1.steps.contentGeneration = some r →
        stepOk r = false) →
      (executeWorkflow o c fs).2 = fs) :=
  ⟨exec_dir_recorded, exec_strat_recorded, exec_pat_recorded,
    exec_fs_unchanged⟩


theorem C2_no_partial_writes_witness :
    (executeWorkflow c2oracle [] ⟨[("docs", [("a.md", "x")])]⟩).2
        = ⟨[("docs", [("a.md", "x")])]⟩ ∧
    (executeWorkflow c2oracle [] ⟨[("docs", [("a.md", "x")])]⟩).1.steps.contentStrategy
        = some (determineStrategyStep
            (readDirectoryContents ⟨[("docs", [("a.md", "x")])]⟩
              (jsGetStr ((selectDirectoryStep (c2oracle .directory)).data.getD
                .null) "selectedDirectory"))
            (c2oracle .strategy)) :=
  ⟨C2_no_partial_writes.2.2.2 c2oracle [] ⟨[("docs", [("a.md", "x")])]⟩ rfl
      (fun r hr => by
        have hr' : (none : Option WorkflowStepResult) = some r := hr
        exact absurd hr' (Option.noConfusion)),
    C2_no_partial_writes.2.1 c2oracle [] ⟨[("docs", [("a.md", "x")])]⟩ rfl⟩

/-- C6: the pre-strategy read is bounded and degrades instead of
aborting: a missing or unlistable directory (including the
`readdir(undefined)` of a non-string `selectedDirectory`) yields the
marker string; only the first 5 markdown files of a listable directory
matter; only the first 500 characters of each file matter; and with the
directory absent the run still executes the strategy step, grounded on
the marker. -/
theorem C6_bounded_read :
    (∀ fs : FS, readDirectoryContents fs none = "Directory does not exist yet") ∧
    (∀ (fs : FS) (d : String), readdirFS fs d = none →
      readDirectoryContents fs (some d) = "Directory does not exist yet") ∧
    (∀ (fs : FS) (d : String) (entries : List (String × String)),
      readdirFS fs d = some entries →
      readDirectoryContents fs (some d)
        = readDirectoryContents
            ⟨[(d, (entries.filter (fun kv => isMarkdownName kv.1)).take 5)]⟩
            (some d)) ∧
    (∀ (d : String) (entries : List (String × String)),
      readDirectoryContents ⟨[(d, entries)]⟩ (some d)
        = readDirectoryContents
            ⟨[(d, entries.map
                (fun kv => (kv.1, String.mk (kv.2.toList.take 500))))]⟩
            (some d)) ∧
    (∀ (o : StepId → String) (c : List ContentPattern) (fs : FS) (d : String),
      stepOk (selectDirectoryStep (o .directory)) = true →
      jsGetStr ((selectDirectoryStep (o .directory)).data.getD .null)
        "selectedDirectory" = some d →
      readdirFS fs d = none →
      (executeWorkflow o c fs).1.steps.contentStrategy
        = some (determineStrategyStep "Directory does not exist yet"
            (o .strategy))) := by
  refine ⟨?_, ?_, ?_, ?_, ?_⟩
  · intro fs
    rfl
  · intro fs d h
    simp [readDirectoryContents, h]
  · intro fs d entries h
    have hsame : List.lookup d
        [(d, (entries.filter (fun kv => isMarkdownName kv.1)).take 5)]
        = some ((entries.filter (fun kv => isMarkdownName kv.1)).take 5) := by
      simp [List.lookup]
    have hall : ∀ kv ∈ (entries.filter (fun kv => isMarkdownName kv.1)).take 5,
        (fun kv : String × String => isMarkdownName kv.1) kv = true := by
      intro kv hkv
      have h1 : kv ∈ entries.filter (fun kv => isMarkdownName kv.1) :=
        List.mem_of_mem_take hkv
      have h2 := List.of_mem_filter h1
      exact h2
    have hfix : ((entries.filter (fun kv => isMarkdownName kv.1)).take 5).filter
        (fun kv => isMarkdownName kv.1)
        = (entries.filter (fun kv => isMarkdownName kv.1)).take 5 :=
      List.filter_eq_self.mpr hall
    have h' : List.lookup d fs.dirs = some entries := h
    simp only [readDirectoryContents, readdirFS, h', hsame, hfix,
      List.take_take, min_self]
  · intro d entries
    have h1 : List.lookup d [(d, entries)] = some entries := by
      simp [List.lookup]
    have h2 : List.lookup d [(d, entries.map
        (fun kv => (kv.1, String.mk (kv.2.toList.take 500))))]
        = some (entries.map (fun kv => (kv.1, String.mk (kv.2.toList.take 500)))) := by
      simp [List.lookup]
    have hcomp : (fun kv : String × String => isMarkdownName kv.1) ∘
        (fun kv : String × String => (kv.1, String.mk (kv.2.toList.take 500)))
        = fun kv : String × String => isMarkdownName kv.1 := by
      funext kv
      rfl
    have hmap : ∀ l : List (String × String),
        (l.map (fun kv => (kv.1, String.mk (kv.2.toList.take 500)))).map
          (fun kv => mdPreview kv.1 kv.2)
        = l.map (fun kv => mdPreview kv.1 kv.2) := by
      intro l
      rw [List.map_map]
      apply List.map_congr_left
      intro kv _
      simp only [Function.comp, mdPreview]
      rw [show (String.mk (kv.2.toList.take 500)).toList
            = kv.2.toList.take 500 from rfl]
      rw [List.take_take]
      simp
    simp only [readDirectoryContents, readdirFS, h1, h2]
    rw [List.filter_map, hcomp, ← List.map_take, hmap]
  · intro o c fs d h1 hd hnone
    rw [exec_strat_recorded o c fs h1, hd]
    simp [readDirectoryContents, hnone]

theorem C6_bounded_read_witness :
    readDirectoryContents (⟨[]⟩ : FS) (some "docs")
      = "Directory does not exist yet" :=
  C6_bounded_read.2.1 ⟨[]⟩ "docs" rfl


/-- C7 is false as stated: a present, parseable standards file with an
empty `contentTypes` array is loaded as-is, and `getAvailablePatterns()`
is then empty — the built-in fallback guards only the missing,
unparseable, and absent/null-`contentTypes` cases. -/
theorem C7_counterexample :
    parseJsonText c7standards.toList = some (.obj [("contentTypes", .arr [])]) ∧
    getAvailablePatterns (loadContentStandards (some c7standards)) = .list [] :=
  ⟨rfl, rfl⟩

/-- C7 (amended): loading never fails — a missing file, an unparseable
file, and a parsed value whose `contentTypes` is absent or `null` (the
cases where the logging line's `.contentTypes.length` access throws) all
fall back to the built-in default set, which has exactly 2 patterns; but
any other parsed `contentTypes` value is kept as-is, unvalidated: an
empty array — or a falsy non-array value such as `""` — leaves
`getAvailablePatterns()` empty, and a truthy non-array value is returned
outright. -/
theorem C7_fallback_nonempty :
    (loadContentStandards none = .defaults) ∧
    (∀ s, parseJsonText s.toList = none →
      loadContentStandards (some s) = .defaults) ∧
    (∀ s j, parseJsonText s.toList = some j →
      (jsGetField j "contentTypes" = none ∨
        jsGetField j "contentTypes" = some .null) →
      loadContentStandards (some s) = .defaults) ∧
    (∀ s j v, parseJsonText s.toList = some j →
      jsGetField j "contentTypes" = some v → v ≠ .null →
      loadContentStandards (some s) = .parsed v) ∧
    (getAvailablePatterns .defaults = .list defaultContentTypes ∧
      defaultContentTypes.length = 2) ∧
    (getAvailablePatterns (loadContentStandards (some c7falsy)) = .list [] ∧
      getAvailablePatterns (loadContentStandards (some c7bogus))
        = .raw (.num "5")) := by
  refine ⟨rfl, ?_, ?_, ?_, ⟨rfl, rfl⟩, ⟨rfl, rfl⟩⟩
  · intro s h
    have h' : parseJsonText s.data = none := h
    simp [loadContentStandards, h']
  · intro s j h hor
    unfold loadContentStandards
    dsimp only
    rw [h]
    dsimp only
    rcases hor with h1 | h1 <;> rw [h1]
  · intro s j v h hv hne
    unfold loadContentStandards
    dsimp only
    rw [h]
    dsimp only
    rw [hv]
    cases v with
    | null => exact absurd rfl hne
    | bool b => rfl
    | num lex => rfl
    | str s2 => rfl
    | arr elems => rfl
    | obj fields => rfl

theorem C7_fallback_nonempty_witness :
    loadContentStandards (some "not json") = .defaults ∧
    loadContentStandards (some "\x7b\"a\": 1\x7d") = .defaults :=
  ⟨C7_fallback_nonempty.2.1 "not json" rfl,
    C7_fallback_nonempty.2.2.1 "\x7b\"a\": 1\x7d" (.obj [("a", .num "1")])
      rfl (Or.inl rfl)⟩

/-- C8: `renderPrompt` throws exactly on an unknown prompt id (an argument
with a `/` and no `{{`, absent from the store); on the template path it
always returns the substituted text — unresolved placeholders are merely
reported (`findUnresolved`), never a failure; and each `{{key}}`
substitution is global: the result interleaves the replacement value
between the pattern-free segments of the template, so every occurrence is
substituted. -/
theorem C8_render_prompt :
    (∀ (store : String → Option String) (arg : String)
        (vars : List (String × String)),
      containsSub arg.toList ['/'] = true →
      containsSub arg.toList twoBraces = false →
      store arg = none →
      renderPrompt store arg vars = .error ("Prompt not found: " ++ arg)) ∧
    (∀ (store : String → Option String) (arg t : String)
        (vars : List (String × String)),
      containsSub arg.toList ['/'] = true →
      containsSub arg.toList twoBraces = false →
      store arg = some t →
      renderPrompt store arg vars
        = .ok (String.mk (renderTemplate t.toList vars))) ∧
    (∀ (store : String → Option String) (arg : String)
        (vars : List (String × String)),
      containsSub arg.toList ['/'] = false ∨
        containsSub arg.toList twoBraces = true →
      renderPrompt store arg vars
        = .ok (String.mk (renderTemplate arg.toList vars))) ∧
    (∀ (t key rep : Str),
      replaceAll t (placeholderOf key) rep
        = joinWith rep (splitOnPat t (placeholderOf key)) ∧
      ∀ part ∈ splitOnPat t (placeholderOf key),
        ¬ placeholderOf key <:+: part) := by
  have hne : ∀ key : Str, placeholderOf key ≠ [] := by
    intro key
    simp [placeholderOf, twoBraces]
  refine ⟨?_, ?_, ?_, ?_⟩
  · intro store arg vars h1 h2 h3
    have h1' : containsSub arg.data ['/'] = true := h1
    have h2' : containsSub arg.data twoBraces = false := h2
    simp [renderPrompt, h1', h2', h3]
  · intro store arg t vars h1 h2 h3
    have h1' : containsSub arg.data ['/'] = true := h1
    have h2' : containsSub arg.data twoBraces = false := h2
    simp [renderPrompt, h1', h2', h3]
  · intro store arg vars h
    rcases h with h | h
    · have h' : containsSub arg.data ['/'] = false := h
      simp [renderPrompt, h']
    · have h' : containsSub arg.data twoBraces = true := h
      simp [renderPrompt, h']
  · intro t key rep
    exact ⟨replaceAll_eq_joinWith (placeholderOf key) (hne key) t rep,
      splitOnPat_no_occ (placeholderOf key) (hne key) t⟩

theorem C8_render_prompt_witness :
    renderPrompt (fun _ => none) "a/b" [] = .error ("Prompt not found: " ++ "a/b") :=
  C8_render_prompt.1 (fun _ => none) "a/b" [] rfl rfl rfl

/-- C9: the repository walk is depth-bounded and skip-disciplined at
every level: children are enumerated for a directory only when its depth
is below `maxDepth` (default 3 — so nothing at depth 3 or deeper is
expanded) and its name is not skipped; the skip list contains the
well-known non-content names and every dot-directory. -/
theorem C9_depth_bounded :
    (∀ (e : FsEntry) (depth maxDepth : Nat),
      NodeBounded maxDepth depth (buildDirectoryTree e depth maxDepth)) ∧
    shouldSkipDirectory "node_modules" = true ∧
    shouldSkipDirectory ".git" = true ∧
    shouldSkipDirectory "dist" = true ∧
    shouldSkipDirectory "__pycache__" = true ∧
    (∀ name : String, strStartsWith name "." = true →
      shouldSkipDirectory name = true) := by
  refine ⟨?_, rfl, rfl, rfl, rfl, ?_⟩
  · suffices H : ∀ n (e : FsEntry), sizeOf e ≤ n → ∀ depth maxDepth,
        NodeBounded maxDepth depth (buildDirectoryTree e depth maxDepth) by
      exact fun e depth maxDepth => H (sizeOf e) e le_rfl depth maxDepth
    intro n
    induction n with
    | zero =>
      intro e he depth maxDepth
      cases e <;> simp at he
    | succ n ih =>
      intro e he depth maxDepth
      cases e with
      | file name sz =>
        rw [buildDirectoryTree]
        exact .leaf depth name .file (some sz) (isDocumentationRelated name)
      | dir name entries =>
        rw [buildDirectoryTree]
        split
        · next hguard =>
          refine .node depth name .dir _ none (isDocumentationRelated name)
            hguard.1 hguard.2 ?_
          intro c hc
          have hc' : c ∈ entries.attach.map
              (fun c => buildDirectoryTree c.1 (depth + 1) maxDepth) :=
            (List.mergeSort_perm _ _).mem_iff.mp hc
          obtain ⟨⟨c0, hc0⟩, _, rfl⟩ := List.mem_map.mp hc'
          have hsz : sizeOf c0 < sizeOf (FsEntry.dir name entries) := by
            have h1 := List.sizeOf_lt_of_mem hc0
            simp only [FsEntry.dir.sizeOf_spec]
            omega
          exact ih c0 (by simp only [FsEntry.dir.sizeOf_spec] at he hsz ⊢; omega)
            (depth + 1) maxDepth
        · exact .leaf depth name .dir none (isDocumentationRelated name)
  · intro name h
    simp [shouldSkipDirectory, h]

theorem C9_depth_bounded_witness :
    NodeBounded 3 0 (buildDirectoryTree
      (.dir "root" [.dir "node_modules" [], .file "README.md" 10]) 0 3) ∧
    shouldSkipDirectory ".cache" = true :=
  ⟨C9_depth_bounded.1 (.dir "root" [.dir "node_modules" [], .file "README.md" 10]) 0 3,
    C9_depth_bounded.2.2.2.2.2 ".cache" (by decide)⟩

/-- C10 counterexample: for the pattern whose required section is named
`" A"` (a single-line name with leading whitespace) and empty content, the
stub heading `##  A` is inserted, but its heading capture is `A` (the
regex's `\s+` absorbs the name's leading space), `" a"` is not an infix of
`"a"`, and validation still reports `" A"` missing. -/
theorem C10_counterexample :
    (validateContentAgainstPattern (applyPatternToContent c10pattern [])
      c10pattern).missingRequired = [" A"] := by
  have hgen : generateFromTemplate c10pattern [] = "# Title".toList := rfl
  have htrim : (trimStr ([] : Str)).length < 100 := by decide
  have hens : ensureRequiredSections ("# Title".toList) c10pattern
      = "# Title\n##  A\n\n[Content for  A]\n".toList := by decide
  have hsur : surroundHeadings ("# Title\n##  A\n\n[Content for  A]\n".toList)
      = ['\n', '#', ' ', 'T', 'i', 't', 'l', 'e', '\n', '\n', '\n', '#', '#', ' ', ' ', 'A', '\n', '\n', '\n', '[', 'C', 'o', 'n', 't', 'e', 'n', 't', ' ', 'f', 'o', 'r', ' ', ' ', 'A', ']', '\n'] := by decide
  have hcol : collapseNewlines (['\n', '#', ' ', 'T', 'i', 't', 'l', 'e', '\n', '\n', '\n', '#', '#', ' ', ' ', 'A', '\n', '\n', '\n', '[', 'C', 'o', 'n', 't', 'e', 'n', 't', ' ', 'f', 'o', 'r', ' ', ' ', 'A', ']', '\n'])
      = ['\n', '#', ' ', 'T', 'i', 't', 'l', 'e', '\n', '\n', '#', '#', ' ', ' ', 'A', '\n', '\n', '[', 'C', 'o', 'n', 't', 'e', 'n', 't', ' ', 'f', 'o', 'r', ' ', ' ', 'A', ']', '\n'] := by
    simp [collapseNewlines.eq_1, collapseNewlines.eq_2, collapseNewlines.eq_3]
  have happ : applyPatternToContent c10pattern []
      = "# Title\n\n##  A\n\n[Content for  A]\n".toList := by
    unfold applyPatternToContent
    dsimp only
    rw [if_pos htrim, hgen, hens]
    unfold applyFormattingGuidelines
    dsimp only
    rw [hsur, hcol]
    decide
  rw [happ]
  decide

/-- C10 (amended): for every markdown string and every pattern whose
required-section names are well-formed — nonempty, single-line, and free
of leading and trailing whitespace — validating the output of
`applyPatternToContent` against the same pattern reports an empty
`missingRequired` list: `ensureRequiredSections` inserts a stub heading
for each missing section, and the formatting pass (heading isolation,
newline collapsing, trimming) preserves a covering heading line for every
required section. -/
theorem C10_amended (p : ContentPattern) (content : Str)
    (hgood : ∀ sec ∈ p.requiredSections, sec.toList ≠ [] ∧ '\n' ∉ sec.toList ∧
      trimLeftStr sec.toList = sec.toList ∧
      trimRightStr sec.toList = sec.toList) :
    (validateContentAgainstPattern (applyPatternToContent p content)
      p).missingRequired = [] := by
  have hunf : applyPatternToContent p content
      = applyFormattingGuidelines (ensureRequiredSections
          (if (trimStr content).length < 100 then generateFromTemplate p []
           else content) p) := rfl
  rw [hunf]
  unfold validateContentAgainstPattern
  dsimp only
  rw [List.filter_eq_nil_iff]
  intro sec hmem
  obtain ⟨h1, h2, h3, h4⟩ := hgood sec hmem
  have hcover := format_covers
    (ensureRequiredSections
      (if (trimStr content).length < 100 then generateFromTemplate p []
       else content) p) sec h1 h4
    (ensure_covers _ p sec hmem h1 h2 h3)
  simp [hcover]

theorem C10_amended_witness :
    (∀ sec ∈ technicalGuidePattern.requiredSections, sec.toList ≠ []
      ∧ '\n' ∉ sec.toList ∧ trimLeftStr sec.toList = sec.toList
      ∧ trimRightStr sec.toList = sec.toList) ∧
    (validateContentAgainstPattern
      (applyPatternToContent technicalGuidePattern [])
      technicalGuidePattern).missingRequired = [] :=
  ⟨by decide, C10_amended technicalGuidePattern [] (by decide)⟩
